import Mathlib

/-!
TimeWindowAverage.

A verification development for `src/time_window_average.h`: a running average of the
samples inserted during a trailing time window.

The class is a template over the sample type `T`; the operations of `T` that the class
uses are collected in `Arith T`.  The clock reading that `update` takes from
`std::chrono::steady_clock` is an explicit argument `now`.  Timestamps and the window
are `int64_t` in the source and `Int` here: steady-clock readings are non-negative, so
the difference `now - oldest.first` of two readings is representable and exact
subtraction agrees with the machine subtraction.  Reading `queue.front()` or calling
`queue.pop()` on an empty `std::queue` is undefined behaviour; it is the result `none`.
The mutex is not part of the state.
-/

/-- The operations of the template parameter `T` that the class uses:
`static_cast<T>(0)` in the constructor, `+=` and `-=` in `update`, and `/` and
`static_cast<T>(queue.size())` in `get`.  Division is fallible: it is `none` where the
type gives no result (a zero divisor). -/
structure Arith (T : Type) where
  zero : T
  add : T → T → T
  sub : T → T → T
  div : T → T → Option T
  ofSize : Nat → T

/-- The arithmetic of the unbounded integers, the exact `T` of the statements on the
running sum: sums and differences never overflow, `/` truncates toward zero, dividing by
zero is undefined, and the cast of a size loses nothing.  A fixed-width integral `T`
agrees with it only while `sum` does not overflow and `queue.size()` is representable in
`T`; beyond that `static_cast<T>(queue.size())` narrows, which is what `uintArith`
has. -/
def intArith : Arith Int where
  zero := 0
  add := fun a b => a + b
  sub := fun a b => a - b
  div := fun a b => if b = 0 then none else some (Int.tdiv a b)
  ofSize := fun n => (n : Int)

/-- Exact rational arithmetic: `/` is exact. -/
def ratArith : Arith Rat where
  zero := 0
  add := fun a b => a + b
  sub := fun a b => a - b
  div := fun a b => if b = 0 then none else some (a / b)
  ofSize := fun n => (n : Rat)

/-- Unsigned integers of `bits` bits, a value being a natural number below `2 ^ bits`:
sum and difference wrap around modulo `2 ^ bits`, `static_cast<T>` of a size keeps the
low `bits` bits, and dividing by zero is undefined. -/
def uintArith (bits : Nat) : Arith Nat where
  zero := 0
  add := fun a b => (a + b) % 2 ^ bits
  sub := fun a b => (a + (2 ^ bits - b % 2 ^ bits)) % 2 ^ bits
  div := fun a b => if b = 0 then none else some (a / b)
  ofSize := fun n => n % 2 ^ bits

/-- The data members of the class (lines 13-16), the mutex left out.  The front of the
`std::queue` is the head of the list, its back the last element. -/
structure TimeWindowAverage (T : Type) where
  timeWindowMS : Int
  sum : T
  queue : List (Int × T)
  deriving DecidableEq

/-- The kinds of call a client can make on an instance. -/
inductive Call (T : Type) where
  | update (now : Int) (value : T)
  | get

namespace TimeWindowAverage

variable {T : Type}

/-- The constructor (lines 22-23): stores the window, `sum = static_cast<T>(0)`, an
empty queue.  It has no check and no failing path. -/
def ctor (A : Arith T) (time_window_in_ms : Int) : TimeWindowAverage T :=
  { timeWindowMS := time_window_in_ms, sum := A.zero, queue := [] }

/-- `queue.emplace(now, value)`: a new pair at the back. -/
def emplace (queue : List (Int × T)) (now : Int) (value : T) : List (Int × T) :=
  queue ++ [(now, value)]

/-- `queue.front()`: the oldest entry; undefined on an empty queue. -/
def front (queue : List (Int × T)) : Option (Int × T) :=
  queue.head?

/-- The `while` loop of `update` (lines 39-44), entered with `oldest` the copy of the
front that line 38 (or line 43 of the previous round) took:
while `(now - oldest.first) > timeWindowMS`, subtract `oldest.second` from `sum`,
`queue.pop()` (the match on the queue), and read `queue.front()` again, with no
emptiness test.  The result is the final `(sum, queue)`. -/
def evict (A : Arith T) (timeWindowMS now : Int) (sum : T) :
    List (Int × T) → Int × T → Option (T × List (Int × T))
  | queue, oldest =>
    if now - oldest.1 > timeWindowMS then
      match queue with
      | [] => none
      | _ :: rest =>
        (front rest).bind (fun next => evict A timeWindowMS now (A.sub sum oldest.2) rest next)
    else some (sum, queue)

/-- The method `update` (lines 28-46) with the clock reading `now` as an argument:
emplace `(now, value)`, add `value` to `sum`, and, the queue being non-empty, read the
front and run the eviction loop. -/
def update (A : Arith T) (now : Int) (value : T) (s : TimeWindowAverage T) :
    Option (TimeWindowAverage T) :=
  if (emplace s.queue now value).isEmpty then
    some { s with sum := A.add s.sum value, queue := emplace s.queue now value }
  else
    (front (emplace s.queue now value)).bind (fun oldest =>
      (evict A s.timeWindowMS now (A.add s.sum value) (emplace s.queue now value) oldest).map
        (fun r => { s with sum := r.1, queue := r.2 }))

/-- The method `get` (lines 51-56): the template constant `GET_VALUE_IF_EMPTY` on an
empty queue, otherwise `sum / static_cast<T>(queue.size())`.  It is `const`: it has no
clock reading and no new state. -/
def get (A : Arith T) (GET_VALUE_IF_EMPTY : T) (s : TimeWindowAverage T) : Option T :=
  if s.queue.isEmpty then some GET_VALUE_IF_EMPTY
  else A.div s.sum (A.ofSize s.queue.length)

/-- A sequence of `update` calls, each with its clock reading, from the state `s`. -/
def updates (A : Arith T) : TimeWindowAverage T → List (Int × T) → Option (TimeWindowAverage T)
  | s, [] => some s
  | s, (now, value) :: rest => (update A now value s).bind (fun s' => updates A s' rest)

/-- A sequence of calls from the state `s`: the final state and the values that the
`get` calls returned, in order.  `get` being `const`, the state after it is the state
before it. -/
def run (A : Arith T) (GET_VALUE_IF_EMPTY : T) :
    TimeWindowAverage T → List (Call T) → Option (TimeWindowAverage T × List T)
  | s, [] => some (s, [])
  | s, Call.update now value :: rest =>
    (update A now value s).bind (fun s' => run A GET_VALUE_IF_EMPTY s' rest)
  | s, Call.get :: rest =>
    (get A GET_VALUE_IF_EMPTY s).bind (fun r =>
      (run A GET_VALUE_IF_EMPTY s rest).map (fun p => (p.1, r :: p.2)))

/-- The error that the specification names for construction. -/
inductive ConfigError where
  | InvalidConfig
  deriving DecidableEq

/-- Construction as the specification words it: it fails with `InvalidConfig` if
`window_duration <= 0`, and otherwise produces an instance with `sum = 0` and an empty
sample sequence. -/
def specNew (A : Arith T) (window_duration : Int) : Except ConfigError (TimeWindowAverage T) :=
  if window_duration ≤ 0 then Except.error ConfigError.InvalidConfig
  else Except.ok { timeWindowMS := window_duration, sum := A.zero, queue := [] }

/-- The eviction pass as the specification words it: while the sequence is non-empty
and `now - front.timestamp > window_duration`, remove the front entry and subtract its
value from `sum`. -/
def specEvict (A : Arith T) (window_duration now : Int) : T → List (Int × T) → T × List (Int × T)
  | sum, [] => (sum, [])
  | sum, e :: rest =>
    if now - e.1 > window_duration then specEvict A window_duration now (A.sub sum e.2) rest
    else (sum, e :: rest)

/-- The operation `update` as the specification words it: append `(now, value)` to the
tail of the samples, add `value` to `sum`, then run the eviction pass. -/
def specUpdate (A : Arith T) (now : Int) (value : T) (s : TimeWindowAverage T) :
    TimeWindowAverage T :=
  { timeWindowMS := s.timeWindowMS,
    sum := (specEvict A s.timeWindowMS now (A.add s.sum value) (s.queue ++ [(now, value)])).1,
    queue := (specEvict A s.timeWindowMS now (A.add s.sum value) (s.queue ++ [(now, value)])).2 }

/-- The loop `evict` with a ghost counter: `pops` is the number of `queue.pop()` calls
made so far; the loop itself is that of `evict`, line by line. -/
def evictCount (A : Arith T) (timeWindowMS now : Int) (sum : T) (pops : Nat) :
    List (Int × T) → Int × T → Option (T × List (Int × T) × Nat)
  | queue, oldest =>
    if now - oldest.1 > timeWindowMS then
      match queue with
      | [] => none
      | _ :: rest =>
        (front rest).bind (fun next =>
          evictCount A timeWindowMS now (A.sub sum oldest.2) (pops + 1) rest next)
    else some (sum, queue, pops)

/-- The loop condition of line 39 on an entry: its age at `now` exceeds the window. -/
def stale (timeWindowMS now : Int) (e : Int × T) : Bool :=
  decide (now - e.1 > timeWindowMS)

/-- The exact sum of the values of the queued entries. -/
def queueSum [AddCommGroup T] (queue : List (Int × T)) : T :=
  (queue.map Prod.snd).sum

/-- The arithmetic `A` is exact: its zero, sum and difference are those of the additive
group `T`, and dividing by a positive count succeeds, by the count one without change. -/
structure Exact [AddCommGroup T] (A : Arith T) : Prop where
  zero_eq : A.zero = 0
  add_eq : ∀ a b, A.add a b = a + b
  sub_eq : ∀ a b, A.sub a b = a - b
  div_pos : ∀ a n, 0 < n → ∃ r, A.div a (A.ofSize n) = some r
  div_one : ∀ a, A.div a (A.ofSize 1) = some a

/-! ## The eviction loop -/

theorem stale_false_iff (w now : Int) (e : Int × T) :
    stale w now e = false ↔ now - e.1 ≤ w := by
  simp [stale]

theorem stale_true_iff (w now : Int) (e : Int × T) :
    stale w now e = true ↔ now - e.1 > w := by
  simp [stale]

theorem evict_eq (A : Arith T) (w now : Int) :
    ∀ (rest : List (Int × T)) (o : Int × T) (sum : T),
      (∃ e ∈ o :: rest, stale w now e = false) →
      evict A w now sum (o :: rest) o
        = some (((o :: rest).takeWhile (stale w now)).foldl (fun acc e => A.sub acc e.2) sum,
                (o :: rest).dropWhile (stale w now)) := by
  intro rest
  induction rest with
  | nil =>
    intro o sum h
    obtain ⟨e, he, hs⟩ := h
    simp only [List.mem_singleton] at he
    subst he
    have hn : ¬ (now - e.1 > w) := by
      have := (stale_false_iff w now e).1 hs
      omega
    simp [evict, hn, List.takeWhile, List.dropWhile, hs]
  | cons o' rest ih =>
    intro o sum h
    by_cases hso : stale w now o = true
    · have hgt : now - o.1 > w := (stale_true_iff w now o).1 hso
      have h' : ∃ e ∈ o' :: rest, stale w now e = false := by
        obtain ⟨e, he, hs⟩ := h
        rcases List.mem_cons.1 he with rfl | he'
        · rw [hso] at hs; cases hs
        · exact ⟨e, he', hs⟩
      rw [evict]
      simp only [hgt, if_true, front, List.head?_cons, Option.some_bind]
      rw [ih o' (A.sub sum o.2) h']
      rw [List.takeWhile_cons_of_pos hso, List.dropWhile_cons_of_pos hso]
      rfl
    · have hso' : stale w now o = false := by simpa using hso
      have hn : ¬ (now - o.1 > w) := by
        have := (stale_false_iff w now o).1 hso'
        omega
      rw [evict]
      simp [hn, List.takeWhile, List.dropWhile, hso']

theorem update_eq (A : Arith T) (now : Int) (v : T) (s : TimeWindowAverage T)
    (h : ∃ e ∈ s.queue ++ [(now, v)], stale s.timeWindowMS now e = false) :
    update A now v s
      = some { timeWindowMS := s.timeWindowMS,
               sum := ((s.queue ++ [(now, v)]).takeWhile (stale s.timeWindowMS now)).foldl
                        (fun acc e => A.sub acc e.2) (A.add s.sum v),
               queue := (s.queue ++ [(now, v)]).dropWhile (stale s.timeWindowMS now) } := by
  obtain ⟨w, sum, queue⟩ := s
  cases queue with
  | nil =>
    simp only [List.nil_append] at h ⊢
    simp [update, emplace, front, evict_eq A w now [] (now, v) (A.add sum v) h]
  | cons a t =>
    simp only [List.cons_append] at h ⊢
    simp [update, emplace, front, evict_eq A w now (t ++ [(now, v)]) a (A.add sum v) h]

theorem new_not_stale (w now : Int) (v : T) (hw : 0 ≤ w) : stale w now (now, v) = false := by
  simp [stale, hw]

theorem update_eq_of_nonneg (A : Arith T) (now : Int) (v : T) (s : TimeWindowAverage T)
    (hw : 0 ≤ s.timeWindowMS) :
    update A now v s
      = some { timeWindowMS := s.timeWindowMS,
               sum := ((s.queue ++ [(now, v)]).takeWhile (stale s.timeWindowMS now)).foldl
                        (fun acc e => A.sub acc e.2) (A.add s.sum v),
               queue := (s.queue ++ [(now, v)]).dropWhile (stale s.timeWindowMS now) } :=
  update_eq A now v s ⟨(now, v), by simp, new_not_stale _ now v hw⟩

theorem evict_removed (A : Arith T) (w now : Int) :
    ∀ (rest : List (Int × T)) (o : Int × T) (sum sum' : T) (queue' : List (Int × T)),
      evict A w now sum (o :: rest) o = some (sum', queue') →
      ∃ removed, o :: rest = removed ++ queue' ∧ ∀ r ∈ removed, now - r.1 > w := by
  intro rest
  induction rest with
  | nil =>
    intro o sum sum' queue' h
    rw [evict] at h
    by_cases hgt : now - o.1 > w
    · simp [hgt, front] at h
    · simp only [hgt, if_false, Option.some.injEq, Prod.mk.injEq] at h
      exact ⟨[], by simp [h.2], by simp⟩
  | cons o' rest ih =>
    intro o sum sum' queue' h
    rw [evict] at h
    by_cases hgt : now - o.1 > w
    · simp only [hgt, if_true, front, List.head?_cons, Option.some_bind] at h
      obtain ⟨removed, hcat, hst⟩ := ih o' _ sum' queue' h
      refine ⟨o :: removed, by simp [hcat], ?_⟩
      intro r hr
      rcases List.mem_cons.1 hr with rfl | hr'
      · exact hgt
      · exact hst r hr'
    · simp only [hgt, if_false, Option.some.injEq, Prod.mk.injEq] at h
      exact ⟨[], by simp [h.2], by simp⟩

theorem update_removed (A : Arith T) (now : Int) (v : T) (s s' : TimeWindowAverage T)
    (h : update A now v s = some s') :
    ∃ removed, s.queue ++ [(now, v)] = removed ++ s'.queue ∧
      ∀ r ∈ removed, now - r.1 > s.timeWindowMS := by
  obtain ⟨w, sum, queue⟩ := s
  have key : ∀ (o : Int × T) (rest : List (Int × T)), queue ++ [(now, v)] = o :: rest →
      ∃ removed, queue ++ [(now, v)] = removed ++ s'.queue ∧ ∀ r ∈ removed, now - r.1 > w := by
    intro o rest hq
    simp only [update, emplace, hq, List.isEmpty_cons, Bool.false_eq_true, if_false, front,
      List.head?_cons, Option.some_bind, Option.map_eq_some', Prod.exists] at h
    obtain ⟨sum₁, queue₁, he, hs'⟩ := h
    obtain ⟨removed, hcat, hst⟩ := evict_removed A w now rest o _ sum₁ queue₁ he
    subst hs'
    exact ⟨removed, by rw [hq]; exact hcat, hst⟩
  cases queue with
  | nil => exact key (now, v) [] rfl
  | cons a t => exact key a (t ++ [(now, v)]) rfl

/-! ## Sorted queues: the evicted front is exactly the stale part -/

theorem dropWhile_stale_eq_filter (w now : Int) :
    ∀ l : List (Int × T), l.Pairwise (fun a b => a.1 ≤ b.1) →
      l.dropWhile (stale w now) = l.filter (fun e => decide (now - e.1 ≤ w))
  | [], _ => rfl
  | a :: t, h => by
    rw [List.pairwise_cons] at h
    by_cases ha : stale w now a = true
    · have hgt : now - a.1 > w := (stale_true_iff w now a).1 ha
      have hna : ¬ (now - a.1 ≤ w) := by omega
      rw [List.dropWhile_cons_of_pos ha, dropWhile_stale_eq_filter w now t h.2]
      rw [List.filter_cons, if_neg (by simp only [decide_eq_true_eq]; exact hna)]
    · have hle : now - a.1 ≤ w := by
        have : stale w now a = false := by simpa using ha
        exact (stale_false_iff w now a).1 this
      have hall : List.filter (fun e : Int × T => decide (now - e.1 ≤ w)) t = t := by
        rw [List.filter_eq_self]
        intro b hb
        have := h.1 b hb
        simp only [decide_eq_true_eq]
        omega
      rw [List.dropWhile_cons_of_neg ha]
      rw [List.filter_cons, if_pos (by simp only [decide_eq_true_eq]; exact hle), hall]

/-! ## The running sum -/

theorem queueSum_append [AddCommGroup T] (l₁ l₂ : List (Int × T)) :
    queueSum (l₁ ++ l₂) = queueSum l₁ + queueSum l₂ := by
  simp [queueSum]

theorem foldl_sub_eq [AddCommGroup T] {A : Arith T} (hA : Exact A) :
    ∀ (l : List (Int × T)) (sum : T),
      l.foldl (fun acc e => A.sub acc e.2) sum = sum - queueSum l
  | [], sum => by simp [queueSum]
  | a :: t, sum => by
    rw [List.foldl_cons, foldl_sub_eq hA t, hA.sub_eq]
    simp only [queueSum, List.map_cons, List.sum_cons]
    abel

theorem update_sum [AddCommGroup T] {A : Arith T} (hA : Exact A) (now : Int) (v : T)
    (s : TimeWindowAverage T) (hw : 0 ≤ s.timeWindowMS) (hs : s.sum = queueSum s.queue) :
    ∃ s', update A now v s = some s' ∧ s'.timeWindowMS = s.timeWindowMS ∧
      s'.queue = (s.queue ++ [(now, v)]).dropWhile (stale s.timeWindowMS now) ∧
      s'.sum = queueSum s'.queue := by
  refine ⟨_, update_eq_of_nonneg A now v s hw, rfl, rfl, ?_⟩
  simp only
  rw [foldl_sub_eq hA, hA.add_eq, hs]
  have h := List.takeWhile_append_dropWhile (stale s.timeWindowMS now) (s.queue ++ [(now, v)])
  have h2 := congrArg queueSum h
  rw [queueSum_append, queueSum_append] at h2
  have h3 : queueSum [(now, v)] = v := by simp [queueSum]
  rw [h3] at h2
  rw [← h2]
  abel

theorem get_some_of_exact [AddCommGroup T] {A : Arith T} (hA : Exact A) (d : T)
    (s : TimeWindowAverage T) : ∃ r, get A d s = some r := by
  cases hq : s.queue with
  | nil => exact ⟨d, by simp [get, hq]⟩
  | cons a t =>
    obtain ⟨r, hr⟩ := hA.div_pos s.sum (a :: t).length (by simp)
    exact ⟨r, by simp [get, hq] at hr ⊢; exact hr⟩

theorem run_sum [AddCommGroup T] {A : Arith T} (hA : Exact A) (d : T) :
    ∀ (calls : List (Call T)) (s : TimeWindowAverage T), 0 ≤ s.timeWindowMS →
      s.sum = queueSum s.queue →
      ∃ s' outs, run A d s calls = some (s', outs) ∧ s'.timeWindowMS = s.timeWindowMS ∧
        s'.sum = queueSum s'.queue
  | [], s, _, hs => ⟨s, [], rfl, rfl, hs⟩
  | Call.update now v :: rest, s, hw, hs => by
    obtain ⟨s₁, h₁, hw₁, _, hs₁⟩ := update_sum hA now v s hw hs
    obtain ⟨s₂, outs, h₂, hw₂, hs₂⟩ := run_sum hA d rest s₁ (hw₁ ▸ hw) hs₁
    exact ⟨s₂, outs, by simp [run, h₁, h₂], hw₂.trans hw₁, hs₂⟩
  | Call.get :: rest, s, hw, hs => by
    obtain ⟨r, hr⟩ := get_some_of_exact hA d s
    obtain ⟨s₂, outs, h₂, hw₂, hs₂⟩ := run_sum hA d rest s hw hs
    exact ⟨s₂, r :: outs, by simp [run, hr, h₂], hw₂, hs₂⟩

theorem intArith_exact : Exact intArith where
  zero_eq := rfl
  add_eq := fun _ _ => rfl
  sub_eq := fun _ _ => rfl
  div_pos := fun a n hn => by
    have : (n : Int) ≠ 0 := by omega
    exact ⟨Int.tdiv a n, by simp [intArith, this]⟩
  div_one := fun a => by simp [intArith]

theorem ratArith_exact : Exact ratArith where
  zero_eq := rfl
  add_eq := fun _ _ => rfl
  sub_eq := fun _ _ => rfl
  div_pos := fun a n hn => by
    have : (n : Rat) ≠ 0 := by
      have : n ≠ 0 := by omega
      exact_mod_cast this
    exact ⟨a / n, by simp [ratArith, this]⟩
  div_one := fun a => by simp [ratArith]

/-! ## Sequences of updates -/

theorem updates_append (A : Arith T) :
    ∀ (l₁ l₂ : List (Int × T)) (s : TimeWindowAverage T),
      updates A s (l₁ ++ l₂) = (updates A s l₁).bind (fun s' => updates A s' l₂)
  | [], l₂, s => by simp [updates]
  | (now, v) :: t, l₂, s => by
    simp only [List.cons_append, updates]
    cases update A now v s with
    | none => rfl
    | some s₁ => simpa using updates_append A t l₂ s₁

theorem dropWhile_append_cons_of_neg (p : Int × T → Bool) (e : Int × T) (post : List (Int × T))
    (he : p e = false) :
    ∀ pre : List (Int × T), (pre ++ e :: post).dropWhile p = pre.dropWhile p ++ e :: post
  | [] => by simp [List.dropWhile, he]
  | a :: t => by
    by_cases ha : p a = true
    · simp only [List.cons_append, List.dropWhile_cons_of_pos ha]
      exact dropWhile_append_cons_of_neg p e post he t
    · simp only [List.cons_append, List.dropWhile_cons_of_neg ha]

theorem takeWhile_append_cons_of_neg (p : Int × T → Bool) (e : Int × T) (post : List (Int × T))
    (he : p e = false) :
    ∀ pre : List (Int × T), (pre ++ e :: post).takeWhile p = pre.takeWhile p
  | [] => by simp [List.takeWhile, he]
  | a :: t => by
    by_cases ha : p a = true
    · simp only [List.cons_append, List.takeWhile_cons_of_pos ha]
      rw [takeWhile_append_cons_of_neg p e post he t]
    · simp only [List.cons_append, List.takeWhile_cons_of_neg ha]

theorem update_queue (A : Arith T) (now : Int) (v : T) (s : TimeWindowAverage T)
    (hw : 0 ≤ s.timeWindowMS) :
    ∃ s', update A now v s = some s' ∧ s'.timeWindowMS = s.timeWindowMS ∧
      s'.queue = s.queue.dropWhile (stale s.timeWindowMS now) ++ [(now, v)] ∧
      s'.sum = (s.queue.takeWhile (stale s.timeWindowMS now)).foldl
                 (fun acc e => A.sub acc e.2) (A.add s.sum v) := by
  have hn := new_not_stale s.timeWindowMS now v hw
  refine ⟨_, update_eq_of_nonneg A now v s hw, rfl, ?_, ?_⟩
  · exact dropWhile_append_cons_of_neg _ _ [] hn s.queue
  · simp only
    rw [takeWhile_append_cons_of_neg _ _ [] hn s.queue]

theorem updates_suffix (A : Arith T) :
    ∀ (calls : List (Int × T)) (s : TimeWindowAverage T), 0 ≤ s.timeWindowMS →
      ∃ s', updates A s calls = some s' ∧ s'.timeWindowMS = s.timeWindowMS ∧
        s'.queue <:+ s.queue ++ calls ∧ (calls ≠ [] → s'.queue ≠ [])
  | [], s, _ => ⟨s, rfl, rfl, by simp, by simp⟩
  | (now, v) :: rest, s, hw => by
    obtain ⟨s₁, h₁, hw₁, hq₁, _⟩ := update_queue A now v s hw
    obtain ⟨s₂, h₂, hw₂, hq₂, hne₂⟩ := updates_suffix A rest s₁ (hw₁ ▸ hw)
    refine ⟨s₂, by simp [updates, h₁, h₂], hw₂.trans hw₁, ?_, ?_⟩
    · refine hq₂.trans ?_
      obtain ⟨t, ht⟩ := List.dropWhile_suffix (stale s.timeWindowMS now) (l := s.queue)
      refine ⟨t, ?_⟩
      rw [hq₁]
      conv_rhs => rw [← ht]
      simp
    · intro _
      cases rest with
      | nil =>
        simp only [updates, Option.some.injEq] at h₂
        subst h₂
        simp [hq₁]
      | cons c r => exact hne₂ (by simp)

theorem updates_sum_aux [AddCommGroup T] {A : Arith T} (hA : Exact A) :
    ∀ (calls : List (Int × T)) (s s' : TimeWindowAverage T), 0 ≤ s.timeWindowMS →
      s.sum = queueSum s.queue → updates A s calls = some s' → s'.sum = queueSum s'.queue
  | [], s, s', _, hs, h => by
    simp only [updates, Option.some.injEq] at h
    subst h
    exact hs
  | (now, v) :: rest, s, s', hw, hs, h => by
    obtain ⟨s₁, h₁, hw₁, _, hs₁⟩ := update_sum hA now v s hw hs
    simp only [updates, h₁, Option.some_bind] at h
    exact updates_sum_aux hA rest s₁ s' (hw₁ ▸ hw) hs₁ h

theorem updates_sum [AddCommGroup T] {A : Arith T} (hA : Exact A)
    (calls : List (Int × T)) (s : TimeWindowAverage T) (hw : 0 ≤ s.timeWindowMS)
    (hs : s.sum = queueSum s.queue) :
    ∃ s', updates A s calls = some s' ∧ s'.timeWindowMS = s.timeWindowMS ∧
      s'.sum = queueSum s'.queue ∧ (calls ≠ [] → s'.queue ≠ []) := by
  obtain ⟨s', h, hw', _, hne⟩ := updates_suffix A calls s hw
  exact ⟨s', h, hw', updates_sum_aux hA calls s s' hw hs h, hne⟩

theorem update_of_fresh (A : Arith T) (now : Int) (v : T) (s : TimeWindowAverage T)
    (hw : 0 ≤ s.timeWindowMS) (hf : ∀ e ∈ s.queue, now - e.1 ≤ s.timeWindowMS) :
    update A now v s
      = some { timeWindowMS := s.timeWindowMS, sum := A.add s.sum v,
               queue := s.queue ++ [(now, v)] } := by
  have hd : s.queue.dropWhile (stale s.timeWindowMS now) = s.queue := by
    cases hq : s.queue with
    | nil => rfl
    | cons a t =>
      have : stale s.timeWindowMS now a = false :=
        (stale_false_iff _ _ _).2 (hf a (by simp [hq]))
      exact List.dropWhile_cons_of_neg (by simp [this])
  have ht : s.queue.takeWhile (stale s.timeWindowMS now) = [] := by
    cases hq : s.queue with
    | nil => rfl
    | cons a t =>
      have : stale s.timeWindowMS now a = false :=
        (stale_false_iff _ _ _).2 (hf a (by simp [hq]))
      exact List.takeWhile_cons_of_neg (by simp [this])
  obtain ⟨s', h, hw', hq', hs'⟩ := update_queue A now v s hw
  rw [h]
  rw [hd] at hq'
  rw [ht] at hs'
  obtain ⟨w', sum', queue'⟩ := s'
  simp only at hw' hq' hs'
  simp [hw', hq', hs']

theorem update_of_all_stale (A : Arith T) (now : Int) (v : T) (s : TimeWindowAverage T)
    (hw : 0 ≤ s.timeWindowMS) (hst : ∀ e ∈ s.queue, now - e.1 > s.timeWindowMS) :
    update A now v s
      = some { timeWindowMS := s.timeWindowMS,
               sum := s.queue.foldl (fun acc e => A.sub acc e.2) (A.add s.sum v),
               queue := [(now, v)] } := by
  have hall : ∀ e ∈ s.queue, stale s.timeWindowMS now e = true :=
    fun e he => (stale_true_iff _ _ _).2 (hst e he)
  have hd : s.queue.dropWhile (stale s.timeWindowMS now) = [] :=
    List.dropWhile_eq_nil_iff.2 hall
  have ht : s.queue.takeWhile (stale s.timeWindowMS now) = s.queue :=
    List.takeWhile_eq_self_iff.2 hall
  obtain ⟨s', h, hw', hq', hs'⟩ := update_queue A now v s hw
  rw [h]
  rw [hd] at hq'
  rw [ht] at hs'
  obtain ⟨w', sum', queue'⟩ := s'
  simp only at hw' hq' hs'
  simp [hw', hq', hs']

theorem evict_all_stale_exact [AddCommGroup T] {A : Arith T} (hA : Exact A) (w : Int)
    (hw : 0 ≤ w) (calls : List (Int × T)) (now : Int) (v d : T) :
    ∃ s, updates A (ctor A w) calls = some s ∧
      ((∀ e ∈ s.queue, now - e.1 > w) →
        update A now v s = some ⟨w, v, [(now, v)]⟩ ∧
        get A d ⟨w, v, [(now, v)]⟩ = some v) := by
  obtain ⟨s, h, hws, hs, _⟩ := updates_sum hA calls (ctor A w) hw
    (by simp [ctor, queueSum, hA.zero_eq])
  have hws' : s.timeWindowMS = w := hws
  refine ⟨s, h, fun hst => ⟨?_, ?_⟩⟩
  · rw [update_of_all_stale A now v s (hws'.symm ▸ hw) (by simpa [hws'] using hst)]
    rw [foldl_sub_eq hA, hA.add_eq, hs, hws']
    simp
  · simpa [get] using hA.div_one v

theorem update_filter_of_sorted (A : Arith T) (s : TimeWindowAverage T) (now : Int) (v : T)
    (hw : 0 ≤ s.timeWindowMS)
    (hsorted : s.queue.Pairwise (fun a b => a.1 ≤ b.1))
    (hnow : ∀ e ∈ s.queue, e.1 ≤ now) :
    ∃ s', update A now v s = some s' ∧
      s'.queue = (s.queue ++ [(now, v)]).filter
        (fun e => decide (now - e.1 ≤ s.timeWindowMS)) := by
  have hp : (s.queue ++ [(now, v)]).Pairwise (fun a b => a.1 ≤ b.1) := by
    rw [List.pairwise_append]
    refine ⟨hsorted, List.pairwise_singleton _ _, ?_⟩
    intro a ha b hb
    rw [List.mem_singleton] at hb
    subst hb
    exact hnow a ha
  exact ⟨_, update_eq_of_nonneg A now v s hw,
    dropWhile_stale_eq_filter s.timeWindowMS now (s.queue ++ [(now, v)]) hp⟩

/-! ## The specified loop -/

theorem specEvict_eq (A : Arith T) (w now : Int) :
    ∀ (queue : List (Int × T)) (sum : T),
      specEvict A w now sum queue
        = ((queue.takeWhile (stale w now)).foldl (fun acc e => A.sub acc e.2) sum,
           queue.dropWhile (stale w now))
  | [], sum => rfl
  | e :: rest, sum => by
    by_cases hgt : now - e.1 > w
    · have he : stale w now e = true := (stale_true_iff _ _ _).2 hgt
      rw [specEvict, if_pos hgt, specEvict_eq A w now rest,
        List.takeWhile_cons_of_pos he, List.dropWhile_cons_of_pos he]
      rfl
    · have he : ¬ (stale w now e = true) := fun h => hgt ((stale_true_iff _ _ _).1 h)
      rw [specEvict, if_neg hgt, List.takeWhile_cons_of_neg he, List.dropWhile_cons_of_neg he]
      rfl

theorem pairwise_of_updates (A : Arith T) (R : Int × T → Int × T → Prop) (w : Int)
    (hw : 0 ≤ w) (calls : List (Int × T)) (hR : calls.Pairwise R) :
    ∃ s, updates A (ctor A w) calls = some s ∧ s.queue <:+ calls ∧ s.queue.Pairwise R := by
  obtain ⟨s, h, _, hq, _⟩ := updates_suffix A calls (ctor A w) hw
  have hsuf : s.queue <:+ calls := by simpa [ctor] using hq
  exact ⟨s, h, hsuf, hR.sublist hsuf.sublist⟩

theorem update_evicted (A : Arith T) (now : Int) (v : T) (s : TimeWindowAverage T)
    (hw : 0 ≤ s.timeWindowMS) :
    ∃ s' removed, update A now v s = some s' ∧ s.queue ++ [(now, v)] = removed ++ s'.queue ∧
      (∀ e ∈ removed, now - e.1 > s.timeWindowMS) ∧
      s'.sum = removed.foldl (fun acc e => A.sub acc e.2) (A.add s.sum v) := by
  refine ⟨_, (s.queue ++ [(now, v)]).takeWhile (stale s.timeWindowMS now),
    update_eq_of_nonneg A now v s hw, (List.takeWhile_append_dropWhile _ _).symm, ?_, rfl⟩
  intro e he
  exact (stale_true_iff _ _ _).1 (List.mem_takeWhile_imp he)

theorem update_evicted_sum [AddCommGroup T] {A : Arith T} (hA : Exact A) (now : Int) (v : T)
    (s : TimeWindowAverage T) (hw : 0 ≤ s.timeWindowMS) :
    ∃ s' removed, update A now v s = some s' ∧ s.queue ++ [(now, v)] = removed ++ s'.queue ∧
      (∀ e ∈ removed, now - e.1 > s.timeWindowMS) ∧
      s'.sum = s.sum + v - (removed.map Prod.snd).sum := by
  obtain ⟨s', removed, h, hcat, hst, hsum⟩ := update_evicted A now v s hw
  refine ⟨s', removed, h, hcat, hst, ?_⟩
  rw [hsum, foldl_sub_eq hA, hA.add_eq]
  rfl

/-! ## The loop with its ghost counter, and the failing loop -/

theorem evictCount_fst (A : Arith T) (w now : Int) :
    ∀ (queue : List (Int × T)) (oldest : Int × T) (sum : T) (pops : Nat),
      (evictCount A w now sum pops queue oldest).map (fun r => (r.1, r.2.1))
        = evict A w now sum queue oldest := by
  intro queue
  induction queue with
  | nil =>
    intro oldest sum pops
    rw [evictCount, evict]
    by_cases hgt : now - oldest.1 > w <;> simp [hgt]
  | cons a rest ih =>
    intro oldest sum pops
    rw [evictCount, evict]
    by_cases hgt : now - oldest.1 > w
    · simp only [hgt, if_true]
      cases hf : front rest with
      | none => simp
      | some next => simpa using ih next (A.sub sum oldest.2) (pops + 1)
    · simp [hgt]

theorem evictCount_eq (A : Arith T) (w now : Int) :
    ∀ (rest : List (Int × T)) (o : Int × T) (sum : T) (pops : Nat),
      (∃ e ∈ o :: rest, stale w now e = false) →
      evictCount A w now sum pops (o :: rest) o
        = some (((o :: rest).takeWhile (stale w now)).foldl (fun acc e => A.sub acc e.2) sum,
                (o :: rest).dropWhile (stale w now),
                pops + ((o :: rest).takeWhile (stale w now)).length) := by
  intro rest
  induction rest with
  | nil =>
    intro o sum pops h
    obtain ⟨e, he, hs⟩ := h
    simp only [List.mem_singleton] at he
    subst he
    have hn : ¬ (now - e.1 > w) := by
      have := (stale_false_iff w now e).1 hs
      omega
    simp [evictCount, hn, List.takeWhile, List.dropWhile, hs]
  | cons o' rest ih =>
    intro o sum pops h
    by_cases hso : stale w now o = true
    · have hgt : now - o.1 > w := (stale_true_iff w now o).1 hso
      have h' : ∃ e ∈ o' :: rest, stale w now e = false := by
        obtain ⟨e, he, hs⟩ := h
        rcases List.mem_cons.1 he with rfl | he'
        · rw [hso] at hs; cases hs
        · exact ⟨e, he', hs⟩
      rw [evictCount]
      simp only [hgt, if_true, front, List.head?_cons, Option.some_bind]
      rw [ih o' (A.sub sum o.2) (pops + 1) h']
      rw [List.takeWhile_cons_of_pos hso, List.dropWhile_cons_of_pos hso]
      simp only [List.foldl_cons, List.length_cons, Option.some.injEq, Prod.mk.injEq, true_and]
      omega
    · have hso' : stale w now o = false := by simpa using hso
      have hn : ¬ (now - o.1 > w) := by
        have := (stale_false_iff w now o).1 hso'
        omega
      rw [evictCount]
      simp [hn, List.takeWhile, List.dropWhile, hso']

theorem evict_none (A : Arith T) (w now : Int) :
    ∀ (rest : List (Int × T)) (o : Int × T) (sum : T),
      (∀ e ∈ o :: rest, now - e.1 > w) → evict A w now sum (o :: rest) o = none := by
  intro rest
  induction rest with
  | nil =>
    intro o sum h
    have hgt : now - o.1 > w := h o (by simp)
    simp [evict, hgt, front]
  | cons o' rest ih =>
    intro o sum h
    have hgt : now - o.1 > w := h o (by simp)
    rw [evict]
    simp only [hgt, if_true, front, List.head?_cons, Option.some_bind]
    exact ih o' _ (fun e he => h e (List.mem_cons_of_mem _ he))

theorem update_none (A : Arith T) (now : Int) (v : T) (s : TimeWindowAverage T)
    (h : ∀ e ∈ s.queue ++ [(now, v)], now - e.1 > s.timeWindowMS) :
    update A now v s = none := by
  obtain ⟨w, sum, queue⟩ := s
  cases queue with
  | nil =>
    simp only [List.nil_append] at h
    simp [update, emplace, front, evict_none A w now [] (now, v) (A.add sum v) h]
  | cons a t =>
    simp only [List.cons_append] at h
    simp [update, emplace, front, evict_none A w now (t ++ [(now, v)]) a (A.add sum v) h]

/-! ## Wrap-around arithmetic -/

theorem updates_of_fresh (A : Arith T) :
    ∀ (calls : List (Int × T)) (s : TimeWindowAverage T), 0 ≤ s.timeWindowMS →
      (∀ c ∈ calls, ∀ e ∈ s.queue ++ calls, c.1 - e.1 ≤ s.timeWindowMS) →
      updates A s calls
        = some { timeWindowMS := s.timeWindowMS,
                 sum := calls.foldl (fun acc c => A.add acc c.2) s.sum,
                 queue := s.queue ++ calls }
  | [], s, _, _ => by simp [updates]
  | (now, v) :: rest, s, hw, h => by
    have h₁ := update_of_fresh A now v s hw
      (fun e he => h (now, v) (by simp) e (List.mem_append_left _ he))
    rw [updates, h₁, Option.some_bind]
    have h₂ := updates_of_fresh A rest
      { timeWindowMS := s.timeWindowMS, sum := A.add s.sum v, queue := s.queue ++ [(now, v)] }
      hw (fun c hc e he => h c (List.mem_cons_of_mem _ hc) e (by simpa using he))
    rw [h₂]
    simp

theorem uint_sub_add (bits a b : Nat) :
    (uintArith bits).sub a b + b ≡ a [MOD 2 ^ bits] := by
  have hpos : 0 < 2 ^ bits := Nat.pos_pow_of_pos bits (by decide)
  have hlt : b % 2 ^ bits < 2 ^ bits := Nat.mod_lt _ hpos
  have h₁ : (uintArith bits).sub a b ≡ a + (2 ^ bits - b % 2 ^ bits) [MOD 2 ^ bits] :=
    Nat.mod_modEq _ _
  have h₂ : b ≡ b % 2 ^ bits [MOD 2 ^ bits] := (Nat.mod_modEq _ _).symm
  have h₃ : a + (2 ^ bits - b % 2 ^ bits) + b % 2 ^ bits = a + 2 ^ bits := by omega
  have h₄ : a + 2 ^ bits ≡ a [MOD 2 ^ bits] := by
    simp [Nat.ModEq]
  exact ((h₁.add h₂).trans (h₃ ▸ Nat.ModEq.refl _)).trans h₄

theorem uint_foldl_sub (bits : Nat) :
    ∀ (l : List (Int × Nat)) (x : Nat),
      l.foldl (fun acc e => (uintArith bits).sub acc e.2) x + (l.map Prod.snd).sum
        ≡ x [MOD 2 ^ bits]
  | [], x => by simp [Nat.ModEq]
  | e :: t, x => by
    have h₁ := uint_foldl_sub bits t ((uintArith bits).sub x e.2)
    have h₂ := uint_sub_add bits x e.2
    simp only [List.foldl_cons, List.map_cons, List.sum_cons]
    have h₃ := h₁.add_right e.2
    have h₄ : List.foldl (fun acc e => (uintArith bits).sub acc e.2) ((uintArith bits).sub x e.2) t
        + (e.2 + (t.map Prod.snd).sum)
        = List.foldl (fun acc e => (uintArith bits).sub acc e.2) ((uintArith bits).sub x e.2) t
        + (t.map Prod.snd).sum + e.2 := by omega
    rw [h₄]
    exact h₃.trans h₂

theorem uint_foldl_sub_lt (bits : Nat) :
    ∀ (l : List (Int × Nat)) (x : Nat), x < 2 ^ bits →
      l.foldl (fun acc e => (uintArith bits).sub acc e.2) x < 2 ^ bits
  | [], _, hx => hx
  | e :: t, x, _ => by
    rw [List.foldl_cons]
    exact uint_foldl_sub_lt bits t _ (Nat.mod_lt _ (Nat.pos_pow_of_pos bits (by decide)))

theorem uint_update_sum (bits : Nat) (now : Int) (v : Nat) (s : TimeWindowAverage Nat)
    (hw : 0 ≤ s.timeWindowMS) (hs : s.sum ≡ (s.queue.map Prod.snd).sum [MOD 2 ^ bits]) :
    ∃ s', update (uintArith bits) now v s = some s' ∧ s'.timeWindowMS = s.timeWindowMS ∧
      s'.sum < 2 ^ bits ∧ s'.sum ≡ (s'.queue.map Prod.snd).sum [MOD 2 ^ bits] := by
  have hpos : 0 < 2 ^ bits := Nat.pos_pow_of_pos bits (by decide)
  refine ⟨_, update_eq_of_nonneg (uintArith bits) now v s hw, rfl, ?_, ?_⟩
  · exact uint_foldl_sub_lt bits _ _ (Nat.mod_lt _ hpos)
  · simp only
    have h₁ := uint_foldl_sub bits
      ((s.queue ++ [(now, v)]).takeWhile (stale s.timeWindowMS now)) ((uintArith bits).add s.sum v)
    have h₂ : (uintArith bits).add s.sum v ≡ s.sum + v [MOD 2 ^ bits] := Nat.mod_modEq _ _
    have h₃ : s.sum + v ≡ ((s.queue ++ [(now, v)]).map Prod.snd).sum [MOD 2 ^ bits] := by
      simpa using hs.add_right v
    have h₄ := congrArg (fun l : List (Int × Nat) => (l.map Prod.snd).sum)
      (List.takeWhile_append_dropWhile (stale s.timeWindowMS now) (s.queue ++ [(now, v)]))
    simp only [List.map_append, List.sum_append] at h₄
    have h₅ := (h₁.trans h₂).trans h₃
    simp only [List.map_append, List.sum_append] at h₅
    rw [← h₄, Nat.add_comm] at h₅
    exact Nat.ModEq.add_left_cancel' _ h₅

theorem uint_updates_sum (bits : Nat) :
    ∀ (calls : List (Int × Nat)) (s : TimeWindowAverage Nat), 0 ≤ s.timeWindowMS →
      s.sum < 2 ^ bits → s.sum ≡ (s.queue.map Prod.snd).sum [MOD 2 ^ bits] →
      ∃ s', updates (uintArith bits) s calls = some s' ∧
        s'.sum < 2 ^ bits ∧ s'.sum ≡ (s'.queue.map Prod.snd).sum [MOD 2 ^ bits]
  | [], s, _, hlt, hs => ⟨s, rfl, hlt, hs⟩
  | (now, v) :: rest, s, hw, _, hs => by
    obtain ⟨s₁, h₁, hw₁, hlt₁, hs₁⟩ := uint_update_sum bits now v s hw hs
    obtain ⟨s₂, h₂, hlt₂, hs₂⟩ := uint_updates_sum bits rest s₁ (hw₁ ▸ hw) hlt₁ hs₁
    exact ⟨s₂, by simp [updates, h₁, h₂], hlt₂, hs₂⟩

/-! ## The narrowing cast of the count -/

theorem uint_foldl_add_zeros (bits : Nat) :
    ∀ (l : List (Int × Nat)) (x : Nat), (∀ c ∈ l, c.2 = 0) → x < 2 ^ bits →
      l.foldl (fun acc c => (uintArith bits).add acc c.2) x = x
  | [], _, _, _ => rfl
  | c :: t, x, h, hx => by
    have hc : (uintArith bits).add x c.2 = x := by
      rw [h c (by simp)]
      simp only [uintArith, Nat.add_zero]
      exact Nat.mod_eq_of_lt hx
    rw [List.foldl_cons, hc]
    exact uint_foldl_add_zeros bits t x (fun e he => h e (List.mem_cons_of_mem _ he)) hx

theorem sum_zeros : ∀ l : List (Int × Nat), (∀ c ∈ l, c.2 = 0) → (l.map Prod.snd).sum = 0
  | [], _ => rfl
  | c :: t, h => by
    rw [List.map_cons, List.sum_cons, h c (by simp),
      sum_zeros t (fun e he => h e (List.mem_cons_of_mem _ he))]

theorem narrow_run :
    updates (uintArith 8) (ctor (uintArith 8) 1000)
        ((0, 100) :: (1, 100) :: (List.range 255).map (fun i : Nat => ((i : Int) + 2, (0 : Nat))))
      = some ⟨1000, 200,
          (0, 100) :: (1, 100) ::
            (List.range 255).map (fun i : Nat => ((i : Int) + 2, (0 : Nat)))⟩ := by
  have hz : ∀ c ∈ (List.range 255).map (fun i : Nat => ((i : Int) + 2, (0 : Nat))),
      c.2 = 0 := by
    intro c hc
    simp only [List.mem_map, List.mem_range] at hc
    obtain ⟨i, _, rfl⟩ := hc
    rfl
  have h := updates_of_fresh (uintArith 8)
    ((0, 100) :: (1, 100) :: (List.range 255).map (fun i : Nat => ((i : Int) + 2, (0 : Nat))))
    (ctor (uintArith 8) 1000) (by decide)
    (by
      intro c hc e he
      have hb : ∀ x ∈ (0, 100) :: (1, 100) ::
          (List.range 255).map (fun i : Nat => ((i : Int) + 2, (0 : Nat))),
          0 ≤ x.1 ∧ x.1 ≤ 256 := by
        intro x hx
        simp only [List.mem_cons, List.mem_map, List.mem_range] at hx
        rcases hx with rfl | rfl | ⟨i, hi, rfl⟩
        · decide
        · decide
        · simp only
          omega
      have h₁ := hb c hc
      have h₂ := hb e (by simpa [ctor] using he)
      simp only [ctor]
      omega)
  rw [h]
  have hsum : List.foldl (fun acc c => (uintArith 8).add acc c.2) (ctor (uintArith 8) 1000).sum
      ((0, 100) :: (1, 100) :: (List.range 255).map (fun i : Nat => ((i : Int) + 2, (0 : Nat))))
      = 200 := by
    rw [List.foldl_cons, List.foldl_cons]
    have h200 : (uintArith 8).add ((uintArith 8).add (ctor (uintArith 8) 1000).sum
        ((0 : Int), (100 : Nat)).2) ((1 : Int), (100 : Nat)).2 = 200 := by decide
    rw [h200]
    exact uint_foldl_add_zeros 8 _ 200 hz (by decide)
  rw [hsum]
  rfl

theorem narrow_run_facts :
    ((0, 100) :: (1, 100) ::
        (List.range 255).map (fun i : Nat => ((i : Int) + 2, (0 : Nat)))).length = 257 ∧
    (((0, 100) :: (1, 100) ::
        (List.range 255).map (fun i : Nat => ((i : Int) + 2, (0 : Nat)))).map Prod.snd).sum
      = 200 ∧
    ∀ b ∈ ((0, 100) :: (1, 100) ::
        (List.range 255).map (fun i : Nat => ((i : Int) + 2, (0 : Nat)))).map Prod.snd,
      b ≤ 100 := by
  have hz : ∀ c ∈ (List.range 255).map (fun i : Nat => ((i : Int) + 2, (0 : Nat))),
      c.2 = 0 := by
    intro c hc
    simp only [List.mem_map, List.mem_range] at hc
    obtain ⟨i, _, rfl⟩ := hc
    rfl
  refine ⟨by simp, ?_, ?_⟩
  · rw [List.map_cons, List.map_cons, List.sum_cons, List.sum_cons, sum_zeros _ hz]
    rfl
  · intro b hb
    simp only [List.map_cons, List.mem_cons] at hb
    rcases hb with rfl | rfl | hb
    · exact le_refl _
    · exact le_refl _
    · obtain ⟨c, hc, rfl⟩ := List.mem_map.1 hb
      rw [hz c hc]
      exact Nat.zero_le _

theorem uint_get_narrow (d : Nat) (st : TimeWindowAverage Nat)
    (hl : st.queue.length = 257) :
    (uintArith 8).ofSize st.queue.length = 1 ∧ get (uintArith 8) d st = some st.sum := by
  have hne : st.queue ≠ [] := by
    intro hnil
    rw [hnil] at hl
    cases hl
  have hemp : st.queue.isEmpty = false := by simpa using hne
  refine ⟨by rw [hl]; rfl, ?_⟩
  unfold get
  rw [hemp, hl]
  simp [uintArith]

theorem uint_get_in_range (bits d : Nat) (s : TimeWindowAverage Nat) (hne : s.queue ≠ [])
    (hlen : s.queue.length < 2 ^ bits) :
    get (uintArith bits) d s = some (s.sum / s.queue.length) := by
  have hpos : 0 < s.queue.length := List.length_pos.2 hne
  have hemp : s.queue.isEmpty = false := by simpa using hne
  have hcast : s.queue.length % 2 ^ bits = s.queue.length := Nat.mod_eq_of_lt hlen
  have hne0 : s.queue.length ≠ 0 := by omega
  simp [get, hemp, uintArith, hcast, hne0]

theorem natSum_bounds (lo hi : Nat) :
    ∀ l : List (Int × Nat), (∀ e ∈ l, lo ≤ e.2 ∧ e.2 ≤ hi) →
      l.length * lo ≤ (l.map Prod.snd).sum ∧ (l.map Prod.snd).sum ≤ l.length * hi
  | [], _ => by simp
  | a :: t, h => by
    have ha := h a (by simp)
    have ht := natSum_bounds lo hi t (fun e he => h e (List.mem_cons_of_mem _ he))
    simp only [List.map_cons, List.sum_cons, List.length_cons, Nat.add_mul, Nat.one_mul]
    constructor <;> omega

theorem nat_div_between (s : TimeWindowAverage Nat) (hne : s.queue ≠ [])
    (hsum : s.sum = (s.queue.map Prod.snd).sum) (lo hi : Nat)
    (h : ∀ e ∈ s.queue, lo ≤ e.2 ∧ e.2 ≤ hi) :
    lo ≤ s.sum / s.queue.length ∧ s.sum / s.queue.length ≤ hi := by
  have hpos : 0 < s.queue.length := List.length_pos.2 hne
  have hb := natSum_bounds lo hi s.queue h
  rw [hsum]
  constructor
  · rw [Nat.le_div_iff_mul_le hpos, Nat.mul_comm]
    exact hb.1
  · exact Nat.div_le_of_le_mul hb.2

/-! ## The claims -/

/-- C1, exact window contents.  For a window `0 ≤ timeWindowMS`, a state whose queue
timestamps are non-decreasing from front to back and all at most `now`, and any value
`v`, the call `update(now, v)` returns, and the queue after it is the old queue with
`(now, v)` appended, filtered to the entries with `now - timestamp ≤ timeWindowMS`, in
the same order; its length is the number of those entries. -/
theorem update_queue_eq_filter (A : Arith T) (s : TimeWindowAverage T) (now : Int) (v : T)
    (hw : 0 ≤ s.timeWindowMS)
    (hsorted : s.queue.Pairwise (fun a b => a.1 ≤ b.1))
    (hnow : ∀ e ∈ s.queue, e.1 ≤ now) :
    ∃ s', update A now v s = some s' ∧
      s'.queue = (s.queue ++ [(now, v)]).filter
        (fun e => decide (now - e.1 ≤ s.timeWindowMS)) ∧
      s'.queue.length = (s.queue ++ [(now, v)]).countP
        (fun e => decide (now - e.1 ≤ s.timeWindowMS)) := by
  obtain ⟨s', h, hq⟩ := update_filter_of_sorted A s now v hw hsorted hnow
  refine ⟨s', h, hq, ?_⟩
  rw [hq, List.countP_eq_length_filter]

/-- An instance of C1: window 50, queue `[(0, 10), (20, 20)]`, `update(60, 5)`. -/
theorem update_queue_eq_filter_witness :
    update intArith 60 5 ⟨50, 30, [(0, 10), (20, 20)]⟩ = some ⟨50, 25, [(20, 20), (60, 5)]⟩ ∧
    ∃ s', update intArith 60 5 ⟨50, 30, [(0, 10), (20, 20)]⟩ = some s' ∧
      s'.queue = (([(0, 10), (20, 20)] : List (Int × Int)) ++ [(60, 5)]).filter
        (fun e : Int × Int => decide (60 - e.1 ≤ 50)) ∧
      s'.queue.length = (([(0, 10), (20, 20)] : List (Int × Int)) ++ [(60, 5)]).countP
        (fun e : Int × Int => decide (60 - e.1 ≤ 50)) :=
  ⟨by decide,
   update_queue_eq_filter intArith ⟨50, 30, [(0, 10), (20, 20)]⟩ 60 5 (by decide) (by decide)
     (by decide)⟩

/-- C2, sum invariant.  For a window `0 ≤ w`, with exact integer arithmetic and with
exact rational arithmetic, every sequence of `update` and `get` calls on a freshly
constructed instance runs to the end, and in the state it reaches `sum` is the exact sum
of the values of the entries in the queue. -/
theorem sum_invariant (w : Int) (hw : 0 ≤ w) :
    (∀ (d : Int) (calls : List (Call Int)),
      ∃ s outs, run intArith d (ctor intArith w) calls = some (s, outs) ∧
        s.sum = (s.queue.map Prod.snd).sum) ∧
    (∀ (d : Rat) (calls : List (Call Rat)),
      ∃ s outs, run ratArith d (ctor ratArith w) calls = some (s, outs) ∧
        s.sum = (s.queue.map Prod.snd).sum) := by
  constructor
  · intro d calls
    obtain ⟨s, outs, h, _, hs⟩ :=
      run_sum intArith_exact d calls (ctor intArith w) hw (by simp [ctor, queueSum, intArith])
    exact ⟨s, outs, h, hs⟩
  · intro d calls
    obtain ⟨s, outs, h, _, hs⟩ :=
      run_sum ratArith_exact d calls (ctor ratArith w) hw (by simp [ctor, queueSum, ratArith])
    exact ⟨s, outs, h, hs⟩

/-- An instance of C2: window 50, the calls `update(0, 10)`, `get`, `update(60, 20)`,
`get`. -/
theorem sum_invariant_witness :
    (0 : Int) ≤ 50 ∧
    run intArith 0 (ctor intArith 50)
        [Call.update 0 10, Call.get, Call.update 60 20, Call.get]
      = some (⟨50, 20, [(60, 20)]⟩, [10, 20]) ∧
    ∃ s outs, run intArith 0 (ctor intArith 50)
        [Call.update 0 10, Call.get, Call.update 60 20, Call.get] = some (s, outs) ∧
      s.sum = (s.queue.map Prod.snd).sum :=
  ⟨by decide, by decide, (sum_invariant 50 (by decide)).1 0 _⟩

/-- C3 fails on the code for an 8-bit unsigned `T`: with a window of 1000, the calls
`update(100)`, `update(100)` and then 255 calls `update(0)` at the clock readings
0, 1, ..., 256 all return and leave 257 samples in the queue; `sum` is 200, the exact sum
of the queued values (nothing has wrapped), but `static_cast<T>(queue.size())` is
`257 mod 2 ^ 8 = 1` and `get` returns `200 / 1 = 200`, not `200 / 257 = 0`.  While the
count is below `2 ^ bits` the cast keeps it: after one or more updates on a fresh
instance (window `0 ≤ w`) the queue is non-empty and, if the count and the sum of the
queued values are below `2 ^ bits`, `get` returns that sum divided by the count; after
`update(2)`, `update(4)`, `update(6)` within the window `get` returns 4. -/
theorem get_average_narrowed_uint8 :
    (∃ s, updates (uintArith 8) (ctor (uintArith 8) 1000)
        ((0, 100) :: (1, 100) ::
          (List.range 255).map (fun i : Nat => ((i : Int) + 2, (0 : Nat)))) = some s ∧
      s.queue.length = 257 ∧ s.sum = 200 ∧ (s.queue.map Prod.snd).sum = 200 ∧
      (uintArith 8).ofSize s.queue.length = 1 ∧
      get (uintArith 8) 0 s = some 200 ∧
      (s.queue.map Prod.snd).sum / s.queue.length = 0) ∧
    (∀ (bits : Nat) (w : Int) (d : Nat) (c : Int × Nat) (calls : List (Int × Nat)), 0 ≤ w →
      ∃ s, updates (uintArith bits) (ctor (uintArith bits) w) (c :: calls) = some s ∧
        s.queue ≠ [] ∧
        (s.queue.length < 2 ^ bits → (s.queue.map Prod.snd).sum < 2 ^ bits →
          get (uintArith bits) d s
            = some ((s.queue.map Prod.snd).sum / s.queue.length))) ∧
    (∀ (w t₁ t₂ t₃ : Int) (d : Nat), 0 ≤ w → t₁ ≤ t₂ → t₂ ≤ t₃ → t₃ - t₁ ≤ w →
      (updates (uintArith 8) (ctor (uintArith 8) w) [(t₁, 2), (t₂, 4), (t₃, 6)]).bind
        (get (uintArith 8) d) = some 4) := by
  refine ⟨?_, ?_, ?_⟩
  · obtain ⟨hlen, hsum, _⟩ := narrow_run_facts
    obtain ⟨hcast, hget⟩ := uint_get_narrow 0
      ⟨1000, 200, (0, 100) :: (1, 100) ::
        (List.range 255).map (fun i : Nat => ((i : Int) + 2, (0 : Nat)))⟩ hlen
    refine ⟨_, narrow_run, hlen, rfl, hsum, hcast, hget, ?_⟩
    simp only
    rw [hsum, hlen]
  · intro bits w d c calls hw
    obtain ⟨s, h, hlt, hs⟩ := uint_updates_sum bits (c :: calls) (ctor (uintArith bits) w) hw
      (by simp [ctor, uintArith]) (by simp [ctor, uintArith, Nat.ModEq])
    obtain ⟨s', h', _, _, hne⟩ := updates_suffix (uintArith bits) (c :: calls)
      (ctor (uintArith bits) w) hw
    rw [h] at h'
    simp only [Option.some.injEq] at h'
    subst h'
    have hq : s.queue ≠ [] := hne (by simp)
    refine ⟨s, h, hq, ?_⟩
    intro hlen hsum
    have h₁ : s.sum % 2 ^ bits = (s.queue.map Prod.snd).sum % 2 ^ bits := hs
    rw [Nat.mod_eq_of_lt hlt, Nat.mod_eq_of_lt hsum] at h₁
    rw [uint_get_in_range bits d s hq hlen, h₁]
  · intro w t₁ t₂ t₃ d hw h₁₂ h₂₃ h₁₃
    have e₁ : update (uintArith 8) t₁ 2 (ctor (uintArith 8) w) = some ⟨w, 2, [(t₁, 2)]⟩ := by
      rw [update_of_fresh (uintArith 8) t₁ 2 (ctor (uintArith 8) w) hw (by simp [ctor])]
      simp [ctor, uintArith]
    have e₂ : update (uintArith 8) t₂ 4 ⟨w, 2, [(t₁, 2)]⟩
        = some ⟨w, 6, [(t₁, 2), (t₂, 4)]⟩ := by
      rw [update_of_fresh (uintArith 8) t₂ 4 ⟨w, 2, [(t₁, 2)]⟩ hw
        (by intro e he; simp only [List.mem_singleton] at he; subst he; simp only; omega)]
      simp [uintArith]
    have e₃ : update (uintArith 8) t₃ 6 ⟨w, 6, [(t₁, 2), (t₂, 4)]⟩
        = some ⟨w, 12, [(t₁, 2), (t₂, 4), (t₃, 6)]⟩ := by
      rw [update_of_fresh (uintArith 8) t₃ 6 ⟨w, 6, [(t₁, 2), (t₂, 4)]⟩ hw
        (by
          intro e he
          simp only [List.mem_cons, List.mem_singleton, List.mem_nil_iff, or_false] at he
          rcases he with rfl | rfl <;> simp only <;> omega)]
      simp [uintArith]
    simp only [updates, e₁, e₂, e₃, Option.some_bind]
    simp [get, uintArith]

/-- C4, window invariant.  For a window `0 ≤ w` and a sequence of `update` calls on a
fresh instance whose clock readings are non-decreasing, the sequence runs to the end,
and immediately after its last call `update(now, v)` every entry of the queue has
`now - timestamp ≤ w`. -/
theorem window_invariant (A : Arith T) (w : Int) (hw : 0 ≤ w) (calls : List (Int × T))
    (now : Int) (v : T)
    (hmono : (calls ++ [(now, v)]).Pairwise (fun a b => a.1 ≤ b.1)) :
    ∃ s, updates A (ctor A w) (calls ++ [(now, v)]) = some s ∧
      ∀ e ∈ s.queue, now - e.1 ≤ w := by
  obtain ⟨s₁, h₁, hw₁, hq₁, _⟩ := updates_suffix A calls (ctor A w) hw
  have hw₁' : s₁.timeWindowMS = w := hw₁
  have hsub : List.Sublist s₁.queue calls := by
    have : s₁.queue <:+ calls := by simpa [ctor] using hq₁
    exact this.sublist
  rw [List.pairwise_append] at hmono
  obtain ⟨hc, _, hlast⟩ := hmono
  obtain ⟨s₂, h₂, hq₂⟩ := update_filter_of_sorted A s₁ now v (hw₁'.symm ▸ hw)
    (hc.sublist hsub) (fun e he => hlast e (hsub.subset he) (now, v) (by simp))
  refine ⟨s₂, ?_, ?_⟩
  · rw [updates_append, h₁]
    simp [updates, h₂]
  · intro e he
    rw [hq₂, List.mem_filter] at he
    simpa [hw₁'] using he.2

/-- An instance of C4: window 50, updates at the times 0, 30, 60. -/
theorem window_invariant_witness :
    (updates intArith (ctor intArith 50) ([(0, 10), (30, 20)] ++ [(60, 30)])).map
        (fun s => s.queue) = some [(30, 20), (60, 30)] ∧
    ∃ s, updates intArith (ctor intArith 50) ([(0, 10), (30, 20)] ++ [(60, 30)]) = some s ∧
      ∀ e ∈ s.queue, 60 - e.1 ≤ 50 :=
  ⟨by decide, window_invariant intArith 50 (by decide) [(0, 10), (30, 20)] 60 30 (by decide)⟩

/-- C5, boundary inclusivity.  If the queue holds an entry `e` (at any position) whose
age at `now` is exactly the window, `update(now, v)` returns, `e` and everything behind
it stay in the queue, and every entry that the call removed has
`now - timestamp > timeWindowMS`.  Whenever an `update` returns, what it removed is a
front part of the queue all of whose entries have `now - timestamp > timeWindowMS`.
From a queue holding the one sample `(t, x)` (with `sum = x`), `update(t + w, y)` leaves
both samples in the queue and `get` returns their average `(x + y) / 2`. -/
theorem boundary_inclusive (A : Arith T) (s : TimeWindowAverage T) (now : Int) (v : T)
    (pre : List (Int × T)) (e : Int × T) (post : List (Int × T))
    (hq : s.queue = pre ++ e :: post) (hage : now - e.1 = s.timeWindowMS) :
    (∃ s' removed kept, update A now v s = some s' ∧ pre = removed ++ kept ∧
      s'.queue = kept ++ e :: (post ++ [(now, v)]) ∧
      ∀ r ∈ removed, now - r.1 > s.timeWindowMS) ∧
    (∀ (s₀ s₁ : TimeWindowAverage T) (t : Int) (x : T), update A t x s₀ = some s₁ →
      ∃ removed, s₀.queue ++ [(t, x)] = removed ++ s₁.queue ∧
        ∀ r ∈ removed, t - r.1 > s₀.timeWindowMS) ∧
    (∀ w t x y d : Int,
      update intArith (t + w) y ⟨w, x, [(t, x)]⟩ = some ⟨w, x + y, [(t, x), (t + w, y)]⟩ ∧
      get intArith d ⟨w, x + y, [(t, x), (t + w, y)]⟩ = some (Int.tdiv (x + y) 2)) := by
  refine ⟨?_, fun s₀ s₁ t x h => update_removed A t x s₀ s₁ h, ?_⟩
  · have he : stale s.timeWindowMS now e = false :=
      (stale_false_iff _ _ _).2 (le_of_eq hage)
    have hcat : s.queue ++ [(now, v)] = pre ++ e :: (post ++ [(now, v)]) := by
      rw [hq]
      simp
    have hup := update_eq A now v s ⟨e, by rw [hq]; simp, he⟩
    rw [hcat, dropWhile_append_cons_of_neg _ _ _ he pre] at hup
    refine ⟨_, pre.takeWhile (stale s.timeWindowMS now),
      pre.dropWhile (stale s.timeWindowMS now), hup,
      (List.takeWhile_append_dropWhile _ pre).symm, rfl, ?_⟩
    intro r hr
    exact (stale_true_iff _ _ _).1 (List.mem_takeWhile_imp hr)
  · intro w t x y d
    constructor
    · have he : stale w (t + w) ((t, x) : Int × Int) = false := by simp [stale]
      have hup := update_eq intArith (t + w) y ⟨w, x, [(t, x)]⟩ ⟨(t, x), by simp, he⟩
      rw [hup]
      simp [List.takeWhile, List.dropWhile, he, intArith]
    · simp [get, intArith]

/-- An instance of C5: window 50, queue `[(0, 1), (10, 3)]`, `update(60, 5)`: the entry
`(10, 3)` has age exactly 50 and stays, the entry `(0, 1)` has age 60 and goes. -/
theorem boundary_inclusive_witness :
    update intArith 60 5 ⟨50, 4, [(0, 1), (10, 3)]⟩ = some ⟨50, 8, [(10, 3), (60, 5)]⟩ ∧
    ∃ s' removed kept, update intArith 60 5 ⟨50, 4, [(0, 1), (10, 3)]⟩ = some s' ∧
      [((0 : Int), (1 : Int))] = removed ++ kept ∧
      s'.queue = kept ++ (10, 3) :: ([] ++ [(60, 5)]) ∧
      ∀ r ∈ removed, 60 - r.1 > 50 :=
  ⟨by decide,
   (boundary_inclusive intArith ⟨50, 4, [(0, 1), (10, 3)]⟩ 60 5 [(0, 1)] (10, 3) []
     (by decide) (by decide)).1⟩

/-- C6, full eviction yields the new value.  For a window `0 ≤ w`, with exact integer
and with exact rational arithmetic: in a state reached from a fresh instance by updates,
if every queued sample has `now - timestamp > w` (as is the case for the fresh instance
itself), then `update(now, v)` returns, leaves the queue `[(now, v)]` and `sum = v`, and
`get` returns `v`.  After one `update(v)` on a fresh instance `get` returns `v`; with a
window of 50, `update(10)` at `t` and `update(20)` at `t + 60`, `get` returns 20. -/
theorem full_eviction (w : Int) (hw : 0 ≤ w) :
    (∀ (calls : List (Int × Int)) (now v d : Int),
      ∃ s, updates intArith (ctor intArith w) calls = some s ∧
        ((∀ e ∈ s.queue, now - e.1 > w) →
          update intArith now v s = some ⟨w, v, [(now, v)]⟩ ∧
          get intArith d ⟨w, v, [(now, v)]⟩ = some v)) ∧
    (∀ (calls : List (Int × Rat)) (now : Int) (v d : Rat),
      ∃ s, updates ratArith (ctor ratArith w) calls = some s ∧
        ((∀ e ∈ s.queue, now - e.1 > w) →
          update ratArith now v s = some ⟨w, v, [(now, v)]⟩ ∧
          get ratArith d ⟨w, v, [(now, v)]⟩ = some v)) ∧
    (∀ now v d : Int,
      (update intArith now v (ctor intArith w)).bind (get intArith d) = some v) ∧
    (∀ t d : Int,
      (updates intArith (ctor intArith 50) [(t, 10), (t + 60, 20)]).bind (get intArith d)
        = some 20) := by
  refine ⟨fun calls now v d => evict_all_stale_exact intArith_exact w hw calls now v d,
    fun calls now v d => evict_all_stale_exact ratArith_exact w hw calls now v d, ?_, ?_⟩
  · intro now v d
    obtain ⟨s, h, hs⟩ := evict_all_stale_exact intArith_exact w hw [] now v d
    simp only [updates, Option.some.injEq] at h
    subst h
    obtain ⟨h₁, h₂⟩ := hs (by simp [ctor])
    rw [h₁]
    exact h₂
  · intro t d
    obtain ⟨s, h, hs⟩ := evict_all_stale_exact intArith_exact 50 (by decide) [(t, 10)] (t + 60) 20 d
    have e₁ : update intArith t 10 (ctor intArith 50) = some ⟨50, 10, [(t, 10)]⟩ := by
      rw [update_of_fresh intArith t 10 (ctor intArith 50) (by decide) (by simp [ctor])]
      simp [ctor, intArith]
    simp only [updates, e₁, Option.some_bind, Option.some.injEq] at h
    subst h
    obtain ⟨h₁, h₂⟩ := hs (by
      intro e he
      simp only [List.mem_singleton] at he
      subst he
      simp only
      omega)
    simp only [updates, e₁, Option.some_bind, h₁]
    exact h₂

/-- An instance of C6: window 50, `update(10)` at 0 and `update(20)` at 60, then `get`. -/
theorem full_eviction_witness :
    (0 : Int) ≤ 50 ∧
    updates intArith (ctor intArith 50) [(0, 10), (60, 20)] = some ⟨50, 20, [(60, 20)]⟩ ∧
    (updates intArith (ctor intArith 50) [(0, 10), (0 + 60, 20)]).bind (get intArith 0)
      = some 20 :=
  ⟨by decide, by decide, (full_eviction 50 (by decide)).2.2.2 0 0⟩

/-- C7, empty-window default.  In every state whose queue is empty, whatever its window
and its `sum`, `get` returns `GET_VALUE_IF_EMPTY`; a freshly constructed instance, for
any window argument, has `sum = static_cast<T>(0)` (0 for the integers) and an empty
queue, and its `get` returns `GET_VALUE_IF_EMPTY`. -/
theorem get_empty_default (A : Arith T) (d : T) (w : Int) (sum : T) :
    get A d ⟨w, sum, []⟩ = some d ∧
    ctor A w = ⟨w, A.zero, []⟩ ∧
    get A d (ctor A w) = some d ∧
    (ctor intArith w).sum = 0 ∧ (ctor ratArith w).sum = 0 :=
  ⟨rfl, rfl, rfl, rfl, rfl⟩

/-- C8, non-empty after update.  For a window `0 ≤ timeWindowMS`, any state and any
`update(now, v)`: the call returns, the queue after it is non-empty and its last entry
is `(now, v)`; after any further updates the queue is still non-empty, and `get` takes
the division branch, not the empty one. -/
theorem update_nonempty (A : Arith T) (d : T) (s : TimeWindowAverage T) (now : Int) (v : T)
    (hw : 0 ≤ s.timeWindowMS) :
    ∃ s', update A now v s = some s' ∧ s'.queue ≠ [] ∧ s'.queue.getLast? = some (now, v) ∧
      ∀ more : List (Int × T), ∃ s'', updates A s' more = some s'' ∧ s''.queue ≠ [] ∧
        get A d s'' = A.div s''.sum (A.ofSize s''.queue.length) := by
  obtain ⟨s', h, hw', hq', _⟩ := update_queue A now v s hw
  have hne : s'.queue ≠ [] := by simp [hq']
  refine ⟨s', h, hne, by simp [hq'], ?_⟩
  intro more
  obtain ⟨s'', h'', _, _, hne''⟩ := updates_suffix A more s' (hw' ▸ hw)
  have hq'' : s''.queue ≠ [] := by
    cases more with
    | nil =>
      simp only [updates, Option.some.injEq] at h''
      subst h''
      exact hne
    | cons c r => exact hne'' (by simp)
  refine ⟨s'', h'', hq'', ?_⟩
  have : s''.queue.isEmpty = false := by simpa using hq''
  simp [get, this]

/-- An instance of C8: window 50, queue `[(0, 10)]`, `update(60, 20)`. -/
theorem update_nonempty_witness :
    update intArith 60 20 ⟨50, 10, [(0, 10)]⟩ = some ⟨50, 20, [(60, 20)]⟩ ∧
    ∃ s', update intArith 60 20 ⟨50, 10, [(0, 10)]⟩ = some s' ∧ s'.queue ≠ [] ∧
      s'.queue.getLast? = some (60, 20) ∧
      ∀ more : List (Int × Int), ∃ s'', updates intArith s' more = some s'' ∧
        s''.queue ≠ [] ∧
        get intArith 0 s'' = intArith.div s''.sum (intArith.ofSize s''.queue.length) :=
  ⟨by decide, update_nonempty intArith 0 ⟨50, 10, [(0, 10)]⟩ 60 20 (by decide)⟩

/-- C9, `get` is a pure read.  In every state `s`, one or more consecutive `get` calls
leave the state `s` (window, `sum` and queue) as it is and all return the same value;
that value is computed from `sum` and the whole queue of `s`, whatever the age of the
queued samples: no clock reading enters and no entry is evicted. -/
theorem get_pure_read (A : Arith T) (d : T) (s : TimeWindowAverage T) (n : Nat) :
    run A d s (List.replicate (n + 1) Call.get)
      = (get A d s).map (fun r => (s, List.replicate (n + 1) r)) ∧
    get A d s
      = (if s.queue.length = 0 then some d else A.div s.sum (A.ofSize s.queue.length)) := by
  constructor
  · induction n with
    | zero =>
      cases hg : get A d s <;> simp [run, hg]
    | succ n ih =>
      rw [List.replicate_succ, run, ih]
      cases hg : get A d s <;> simp [List.replicate_succ]
  · cases hq : s.queue <;> simp [get, hq]

/-- C10 as stated fails on the code: for the windows 0 and -5 the specified construction
is the failure `InvalidConfig`, while the constructor of the code produces an
instance. -/
theorem ctor_validation_counterexample :
    specNew intArith 0 = Except.error ConfigError.InvalidConfig ∧
    ctor intArith 0 = ⟨0, 0, []⟩ ∧
    specNew intArith 0 ≠ Except.ok (ctor intArith 0) ∧
    specNew intArith (-5) = Except.error ConfigError.InvalidConfig ∧
    ctor intArith (-5) = ⟨-5, 0, []⟩ ∧
    specNew intArith (-5) ≠ Except.ok (ctor intArith (-5)) := by
  refine ⟨rfl, rfl, ?_, rfl, rfl, ?_⟩ <;> simp [specNew]

/-- C10 amended.  The constructor validates nothing and has no failing path: for every
window argument, those `≤ 0` included, it produces the instance with that window,
`sum = static_cast<T>(0)` and an empty queue; this is the result of the specified
construction exactly when the window is `> 0`. -/
theorem ctor_total (A : Arith T) (w : Int) :
    ctor A w = ⟨w, A.zero, []⟩ ∧
    (specNew A w = Except.ok (ctor A w) ↔ 0 < w) := by
  refine ⟨rfl, ?_⟩
  by_cases h : w ≤ 0
  · simp [specNew, h]
  · simp only [specNew, h, if_false, ctor, true_iff]
    omega

/-- C11, timestamp order invariant.  For a window `0 ≤ w` and a sequence of `update`
calls on a fresh instance whose clock readings are non-decreasing, the sequence runs to
the end and in the state it reaches the timestamps of the queue are non-decreasing from
front to back; the front entry, if there is one, is an oldest entry. -/
theorem queue_sorted (A : Arith T) (w : Int) (hw : 0 ≤ w) (calls : List (Int × T))
    (hmono : calls.Pairwise (fun a b => a.1 ≤ b.1)) :
    ∃ s, updates A (ctor A w) calls = some s ∧
      s.queue.Pairwise (fun a b => a.1 ≤ b.1) ∧
      ∀ o, front s.queue = some o → ∀ e ∈ s.queue, o.1 ≤ e.1 := by
  obtain ⟨s, h, _, hp⟩ := pairwise_of_updates A (fun a b => a.1 ≤ b.1) w hw calls hmono
  refine ⟨s, h, hp, ?_⟩
  intro o ho e he
  cases hq : s.queue with
  | nil => simp [hq] at he
  | cons a t =>
    rw [hq] at hp he ho
    simp only [front, List.head?_cons, Option.some.injEq] at ho
    subst ho
    rcases List.mem_cons.1 he with rfl | het
    · exact le_refl _
    · exact (List.pairwise_cons.1 hp).1 e het

/-- An instance of C11: window 50, updates at the times 0, 30, 30, 70. -/
theorem queue_sorted_witness :
    (updates intArith (ctor intArith 50) [(0, 1), (30, 2), (30, 3), (70, 4)]).map
        (fun s => s.queue) = some [(30, 2), (30, 3), (70, 4)] ∧
    ∃ s, updates intArith (ctor intArith 50) [(0, 1), (30, 2), (30, 3), (70, 4)] = some s ∧
      s.queue.Pairwise (fun a b => a.1 ≤ b.1) ∧
      ∀ o, front s.queue = some o → ∀ e ∈ s.queue, o.1 ≤ e.1 :=
  ⟨by decide,
   queue_sorted intArith 50 (by decide) [(0, 1), (30, 2), (30, 3), (70, 4)] (by decide)⟩

/-- C13, front-only eviction of stale entries.  For a window `0 ≤ w`, any state (no
order on the stored timestamps is assumed) and any `update(now, v)`: the call returns,
the queue after it is a suffix of the old queue with `(now, v)` appended, every entry of
the removed front part has `now - timestamp > w`, and, with exact integer or rational
arithmetic, `sum` after the call is `sum + v` minus the sum of the removed values. -/
theorem front_only_eviction (A : Arith T) (w : Int) (hw : 0 ≤ w) :
    (∀ (sum : T) (queue : List (Int × T)) (now : Int) (v : T),
      ∃ s' removed, update A now v ⟨w, sum, queue⟩ = some s' ∧
        queue ++ [(now, v)] = removed ++ s'.queue ∧ s'.queue <:+ queue ++ [(now, v)] ∧
        ∀ e ∈ removed, now - e.1 > w) ∧
    (∀ (sum : Int) (queue : List (Int × Int)) (now v : Int),
      ∃ s' removed, update intArith now v ⟨w, sum, queue⟩ = some s' ∧
        queue ++ [(now, v)] = removed ++ s'.queue ∧
        (∀ e ∈ removed, now - e.1 > w) ∧
        s'.sum = sum + v - (removed.map Prod.snd).sum) ∧
    (∀ (sum : Rat) (queue : List (Int × Rat)) (now : Int) (v : Rat),
      ∃ s' removed, update ratArith now v ⟨w, sum, queue⟩ = some s' ∧
        queue ++ [(now, v)] = removed ++ s'.queue ∧
        (∀ e ∈ removed, now - e.1 > w) ∧
        s'.sum = sum + v - (removed.map Prod.snd).sum) := by
  refine ⟨?_, ?_, ?_⟩
  · intro sum queue now v
    obtain ⟨s', removed, h, hcat, hst, _⟩ := update_evicted A now v ⟨w, sum, queue⟩ hw
    exact ⟨s', removed, h, hcat, ⟨removed, hcat.symm⟩, hst⟩
  · intro sum queue now v
    exact update_evicted_sum intArith_exact now v ⟨w, sum, queue⟩ hw
  · intro sum queue now v
    exact update_evicted_sum ratArith_exact now v ⟨w, sum, queue⟩ hw

/-- An instance of C13: window 50, an unordered queue `[(0, 1), (40, 2), (5, 4)]` with
`sum = 7`, `update(60, 8)`: only the front entry `(0, 1)` goes, the stale `(5, 4)` behind
the fresh `(40, 2)` stays. -/
theorem front_only_eviction_witness :
    (0 : Int) ≤ 50 ∧
    update intArith 60 8 ⟨50, 7, [(0, 1), (40, 2), (5, 4)]⟩
      = some ⟨50, 14, [(40, 2), (5, 4), (60, 8)]⟩ ∧
    ∃ s' removed, update intArith 60 8 ⟨50, 7, [(0, 1), (40, 2), (5, 4)]⟩ = some s' ∧
      [(0, 1), (40, 2), (5, 4)] ++ [(60, 8)] = removed ++ s'.queue ∧
      (∀ e ∈ removed, 60 - e.1 > 50) ∧
      s'.sum = 7 + 8 - (removed.map Prod.snd).sum :=
  ⟨by decide, by decide,
   (front_only_eviction intArith 50 (by decide)).2.1 7 [(0, 1), (40, 2), (5, 4)] 60 8⟩

/-- C14, loop safety and agreement with the specified loop.  For a window
`0 ≤ timeWindowMS` and any state, `update` returns a state, so no `front()` was read and
no `pop()` made on an empty queue, and that state is the one the specified operation
gives: its `sum` and queue are the result of the loop "while the queue is non-empty and
`now - front.timestamp > window`: pop the front and subtract its value". -/
theorem update_eq_specUpdate (A : Arith T) (s : TimeWindowAverage T) (now : Int) (v : T)
    (hw : 0 ≤ s.timeWindowMS) :
    update A now v s = some (specUpdate A now v s) := by
  rw [update_eq_of_nonneg A now v s hw]
  simp only [specUpdate, specEvict_eq]

/-- An instance of C14: window 50, queue `[(0, 10), (30, 20)]`, `update(60, 5)`. -/
theorem update_eq_specUpdate_witness :
    specUpdate intArith 60 5 ⟨50, 30, [(0, 10), (30, 20)]⟩ = ⟨50, 25, [(30, 20), (60, 5)]⟩ ∧
    update intArith 60 5 ⟨50, 30, [(0, 10), (30, 20)]⟩
      = some (specUpdate intArith 60 5 ⟨50, 30, [(0, 10), (30, 20)]⟩) :=
  ⟨by decide, update_eq_specUpdate intArith ⟨50, 30, [(0, 10), (30, 20)]⟩ 60 5 (by decide)⟩

/-- C15, the eviction pass terminates.  For a window `0 ≤ timeWindowMS`, any state and
any `update(now, v)`: the loop, run with a counter of its `pop()` calls, ends after
`pops` of them, `pops` being at most the number of entries that were in the queue before
the call; the queue has lost exactly `pops` entries and still ends with the entry
`(now, v)` just inserted.  The counted loop is the loop of `update`: without the counter
its result is that of `evict` on every input. -/
theorem evict_terminates (A : Arith T) (s : TimeWindowAverage T) (now : Int) (v : T)
    (hw : 0 ≤ s.timeWindowMS) :
    (∃ oldest sum' queue' pops, front (emplace s.queue now v) = some oldest ∧
      evictCount A s.timeWindowMS now (A.add s.sum v) 0 (emplace s.queue now v) oldest
        = some (sum', queue', pops) ∧
      update A now v s = some ⟨s.timeWindowMS, sum', queue'⟩ ∧
      pops ≤ s.queue.length ∧ queue'.length + pops = s.queue.length + 1 ∧
      queue'.getLast? = some (now, v)) ∧
    (∀ (sum : T) (pops : Nat) (queue : List (Int × T)) (oldest : Int × T),
      (evictCount A s.timeWindowMS now sum pops queue oldest).map (fun r => (r.1, r.2.1))
        = evict A s.timeWindowMS now sum queue oldest) := by
  refine ⟨?_, fun sum pops queue oldest => evictCount_fst A _ now queue oldest sum pops⟩
  have hn := new_not_stale s.timeWindowMS now v hw
  have hnon : ∃ e ∈ s.queue ++ [(now, v)], stale s.timeWindowMS now e = false :=
    ⟨(now, v), by simp, hn⟩
  have hup := update_eq_of_nonneg A now v s hw
  have hd := dropWhile_append_cons_of_neg (stale s.timeWindowMS now) (now, v) [] hn s.queue
  have ht := takeWhile_append_cons_of_neg (stale s.timeWindowMS now) (now, v) [] hn s.queue
  have hlen : (s.queue.takeWhile (stale s.timeWindowMS now)).length
      + (s.queue.dropWhile (stale s.timeWindowMS now)).length = s.queue.length := by
    rw [← List.length_append, List.takeWhile_append_dropWhile]
  have key : ∀ (o : Int × T) (rest : List (Int × T)), s.queue ++ [(now, v)] = o :: rest →
      ∃ oldest sum' queue' pops, front (emplace s.queue now v) = some oldest ∧
        evictCount A s.timeWindowMS now (A.add s.sum v) 0 (emplace s.queue now v) oldest
          = some (sum', queue', pops) ∧
        update A now v s = some ⟨s.timeWindowMS, sum', queue'⟩ ∧
        pops ≤ s.queue.length ∧ queue'.length + pops = s.queue.length + 1 ∧
        queue'.getLast? = some (now, v) := by
    intro o rest hq
    have hc := evictCount_eq A s.timeWindowMS now rest o (A.add s.sum v) 0 (hq ▸ hnon)
    rw [← hq] at hc
    refine ⟨o, _, _, _, by simp [emplace, front, hq], by simpa [emplace] using hc, hup, ?_, ?_, ?_⟩
    · rw [ht]
      omega
    · rw [ht, hd]
      simp only [List.length_append, List.length_singleton]
      omega
    · rw [hd]
      simp
  have hex : ∃ o rest, s.queue ++ [(now, v)] = o :: rest := by
    cases s.queue with
    | nil => exact ⟨(now, v), [], rfl⟩
    | cons a t => exact ⟨a, t ++ [(now, v)], rfl⟩
  obtain ⟨o, rest, hq⟩ := hex
  exact key o rest hq

/-- An instance of C15: window 50, queue `[(0, 10), (5, 20), (30, 30)]`, `update(60, 5)`:
two pops. -/
theorem evict_terminates_witness :
    evictCount intArith 50 60 (60 + 5) 0 (emplace [(0, 10), (5, 20), (30, 30)] 60 5) (0, 10)
      = some (35, [(30, 30), (60, 5)], 2) ∧
    ∃ oldest sum' queue' pops,
      front (emplace [(0, 10), (5, 20), (30, 30)] 60 5) = some oldest ∧
      evictCount intArith 50 60 (intArith.add 60 5) 0
          (emplace [(0, 10), (5, 20), (30, 30)] 60 5) oldest = some (sum', queue', pops) ∧
      update intArith 60 5 ⟨50, 60, [(0, 10), (5, 20), (30, 30)]⟩ = some ⟨50, sum', queue'⟩ ∧
      pops ≤ [((0 : Int), (10 : Int)), (5, 20), (30, 30)].length ∧
      queue'.length + pops = [((0 : Int), (10 : Int)), (5, 20), (30, 30)].length + 1 ∧
      queue'.getLast? = some (60, 5) :=
  ⟨by decide,
   (evict_terminates intArith ⟨50, 60, [(0, 10), (5, 20), (30, 30)]⟩ 60 5 (by decide)).1⟩

/-- C16, insertion order is preserved.  For a window `0 ≤ w` and a sequence of `update`
calls on a fresh instance with strictly increasing clock readings, the sequence runs to
the end and the queue it leaves, read from front to back, is a suffix of the list of the
inserted samples in insertion order, with strictly increasing timestamps. -/
theorem insertion_order (A : Arith T) (w : Int) (hw : 0 ≤ w) (calls : List (Int × T))
    (hinc : calls.Pairwise (fun a b => a.1 < b.1)) :
    ∃ s, updates A (ctor A w) calls = some s ∧ s.queue <:+ calls ∧
      s.queue.Pairwise (fun a b => a.1 < b.1) :=
  pairwise_of_updates A (fun a b => a.1 < b.1) w hw calls hinc

/-- An instance of C16: window 50, updates at the times 0, 30, 60, 70. -/
theorem insertion_order_witness :
    (updates intArith (ctor intArith 50) [(0, 1), (30, 2), (60, 3), (70, 4)]).map
        (fun s => s.queue) = some [(30, 2), (60, 3), (70, 4)] ∧
    ∃ s, updates intArith (ctor intArith 50) [(0, 1), (30, 2), (60, 3), (70, 4)] = some s ∧
      s.queue <:+ [(0, 1), (30, 2), (60, 3), (70, 4)] ∧
      s.queue.Pairwise (fun a b => a.1 < b.1) :=
  ⟨by decide,
   insertion_order intArith 50 (by decide) [(0, 1), (30, 2), (60, 3), (70, 4)] (by decide)⟩

/-- C17, a negative window reaches the unguarded read of the front.  The constructor
stores any window as it is.  For a window `w < 0` every `update(now, v)` on an instance
ends in the read of `front()` on an empty queue: the only state that a sequence of
`update` calls reaches from the constructor is the freshly constructed one (every
non-empty sequence fails at its first call), and in it, as in any state whose timestamps
are at most `now`, every entry of the queue after `emplace`, the inserted `(now, v)`
included (`now - now = 0 > w`), passes the loop test and is popped, and the queue that
is then read is empty. -/
theorem negative_window_update (A : Arith T) (w : Int) (hw : w < 0) (now : Int) (v : T) :
    ctor A w = ⟨w, A.zero, []⟩ ∧
    (∀ (calls : List (Int × T)) (s : TimeWindowAverage T),
      updates A (ctor A w) calls = some s →
      s = ctor A w ∧ (∀ e ∈ emplace s.queue now v, now - e.1 > w) ∧
      update A now v s = none) ∧
    (∀ (c : Int × T) (calls : List (Int × T)), updates A (ctor A w) (c :: calls) = none) ∧
    (∀ s : TimeWindowAverage T, s.timeWindowMS = w → (∀ e ∈ s.queue, e.1 ≤ now) →
      (∀ e ∈ emplace s.queue now v, now - e.1 > w) ∧ update A now v s = none) ∧
    front ([] : List (Int × T)) = none := by
  have hstale : ∀ (t : Int) (x : T) (s : TimeWindowAverage T), s.timeWindowMS = w →
      (∀ e ∈ s.queue, e.1 ≤ t) →
      (∀ e ∈ emplace s.queue t x, t - e.1 > w) ∧ update A t x s = none := by
    intro t x s hsw hle
    have hall : ∀ e ∈ s.queue ++ [(t, x)], t - e.1 > s.timeWindowMS := by
      intro e he
      rw [hsw]
      rcases List.mem_append.1 he with he | he
      · have := hle e he
        omega
      · simp only [List.mem_singleton] at he
        subst he
        simp only
        omega
    exact ⟨fun e he => hsw ▸ hall e he, update_none A t x s hall⟩
  have hfirst : ∀ (c : Int × T) (calls : List (Int × T)),
      updates A (ctor A w) (c :: calls) = none := by
    intro c calls
    obtain ⟨t, x⟩ := c
    have := (hstale t x (ctor A w) rfl (by simp [ctor])).2
    simp [updates, this]
  refine ⟨rfl, ?_, hfirst, fun s hsw hle => hstale now v s hsw hle, rfl⟩
  intro calls s h
  cases calls with
  | nil =>
    simp only [updates, Option.some.injEq] at h
    subst h
    exact ⟨rfl, hstale now v (ctor A w) rfl (by simp [ctor])⟩
  | cons c rest =>
    rw [hfirst c rest] at h
    cases h

/-- An instance of C17: window -1, the first `update(5, 3)` on a fresh instance. -/
theorem negative_window_update_witness :
    (-1 : Int) < 0 ∧
    update intArith 5 3 (ctor intArith (-1)) = none ∧
    updates intArith (ctor intArith (-1)) [(5, 3), (6, 4)] = none ∧
    ∀ (calls : List (Int × Int)) (s : TimeWindowAverage Int),
      updates intArith (ctor intArith (-1)) calls = some s →
      s = ctor intArith (-1) ∧ (∀ e ∈ emplace s.queue 5 3, 5 - e.1 > -1) ∧
      update intArith 5 3 s = none :=
  ⟨by decide, by decide, by decide,
   (negative_window_update intArith (-1) (by decide) 5 3).2.1⟩

/-- C18 fails on the code for an 8-bit unsigned `T`: 256 calls `update(1)` at the clock
readings 0, 1, ..., 255 with a window of 1000 all return and leave 256 samples in the
queue; `static_cast<T>(queue.size())` is then `256 mod 2 ^ 8 = 0`, not the number of
samples, and `get`, its queue not being empty, divides `sum` by zero.  In general the
cast keeps a count below `2 ^ bits` and turns the count `2 ^ bits` into 0. -/
theorem get_divides_by_zero_uint8 :
    (∃ s, updates (uintArith 8) (ctor (uintArith 8) 1000)
        ((List.range 256).map (fun i : Nat => ((i : Int), (1 : Nat)))) = some s ∧
      s.queue.length = 256 ∧ s.queue ≠ [] ∧
      (uintArith 8).ofSize s.queue.length = 0 ∧
      get (uintArith 8) 0 s = none) ∧
    (∀ bits n : Nat, n < 2 ^ bits → (uintArith bits).ofSize n = n) ∧
    (∀ bits : Nat, (uintArith bits).ofSize (2 ^ bits) = 0) := by
  refine ⟨?_, ?_, ?_⟩
  · have h := updates_of_fresh (uintArith 8)
      ((List.range 256).map (fun i : Nat => ((i : Int), (1 : Nat)))) (ctor (uintArith 8) 1000)
      (by decide)
      (by
        intro c hc e he
        simp only [ctor, List.nil_append, List.mem_map, List.mem_range] at hc he
        obtain ⟨i, hi, rfl⟩ := hc
        obtain ⟨j, hj, rfl⟩ := he
        simp only [ctor]
        omega)
    have hlen : ((ctor (uintArith 8) 1000).queue
        ++ (List.range 256).map (fun i : Nat => ((i : Int), (1 : Nat)))).length = 256 := by
      simp [ctor]
    have key : ∀ st : TimeWindowAverage Nat, st.queue.length = 256 →
        st.queue ≠ [] ∧ (uintArith 8).ofSize st.queue.length = 0 ∧
        get (uintArith 8) 0 st = none := by
      intro st hl
      have hne : st.queue ≠ [] := by
        intro hnil
        rw [hnil] at hl
        cases hl
      have hemp : st.queue.isEmpty = false := by simpa using hne
      refine ⟨hne, by rw [hl]; rfl, ?_⟩
      unfold get
      rw [hemp, hl]
      rfl
    exact ⟨_, h, hlen, key _ hlen⟩
  · intro bits n hn
    exact Nat.mod_eq_of_lt hn
  · intro bits
    exact Nat.mod_self _

/-- C19 fails on the code for an 8-bit unsigned `T`: after the calls `update(100)`,
`update(100)` and 255 calls `update(0)` at the clock readings 0, 1, ..., 256 (window
1000) the queue holds 257 samples, `sum = 200` is the exact sum of the queued values,
the largest queued value is 100, and `get` returns 200, above the maximum: the divisor
is `static_cast<T>(257) = 1`.  While the count is below `2 ^ bits` the cast keeps it:
in every state with a non-empty queue of fewer than `2 ^ bits` samples in which `sum`
is the sum of the queued values, `get` returns a value between the minimum and the
maximum of the queued values. -/
theorem get_above_maximum_uint8 :
    (∃ s, updates (uintArith 8) (ctor (uintArith 8) 1000)
        ((0, 100) :: (1, 100) ::
          (List.range 255).map (fun i : Nat => ((i : Int) + 2, (0 : Nat)))) = some s ∧
      s.queue ≠ [] ∧ s.sum = (s.queue.map Prod.snd).sum ∧
      (s.queue.map Prod.snd).maximum = WithBot.some 100 ∧
      get (uintArith 8) 0 s = some 200 ∧
      ¬ (WithBot.some 200 ≤ (s.queue.map Prod.snd).maximum)) ∧
    (∀ (bits d : Nat) (s : TimeWindowAverage Nat), s.queue ≠ [] →
      s.sum = (s.queue.map Prod.snd).sum → s.queue.length < 2 ^ bits →
      ∃ r, get (uintArith bits) d s = some r ∧
        (s.queue.map Prod.snd).minimum ≤ WithTop.some r ∧
        WithBot.some r ≤ (s.queue.map Prod.snd).maximum) := by
  refine ⟨?_, ?_⟩
  · obtain ⟨hlen, hsum, hmax⟩ := narrow_run_facts
    obtain ⟨_, hget⟩ := uint_get_narrow 0
      ⟨1000, 200, (0, 100) :: (1, 100) ::
        (List.range 255).map (fun i : Nat => ((i : Int) + 2, (0 : Nat)))⟩ hlen
    have hm : (((0, 100) :: (1, 100) ::
        (List.range 255).map (fun i : Nat => ((i : Int) + 2, (0 : Nat)))).map
          Prod.snd).maximum = WithBot.some 100 := by
      rw [List.maximum_eq_coe_iff]
      exact ⟨by simp, hmax⟩
    refine ⟨_, narrow_run, by simp, hsum.symm, hm, hget, ?_⟩
    simp only
    rw [hm, WithBot.coe_le_coe]
    decide
  · intro bits d s hne hsum hlen
    have hb := nat_div_between s hne hsum
    obtain ⟨e₀, he₀⟩ := List.exists_mem_of_ne_nil _ hne
    refine ⟨_, uint_get_in_range bits d s hne hlen, ?_, ?_⟩
    · rw [List.minimum_le_coe_iff]
      by_contra hcon
      push_neg at hcon
      have hall : ∀ e ∈ s.queue, s.sum / s.queue.length + 1 ≤ e.2 := by
        intro e he
        have := hcon e.2 (List.mem_map_of_mem _ he)
        omega
      obtain ⟨M, hM⟩ : ∃ M : Nat, ∀ e ∈ s.queue, e.2 ≤ M := by
        clear hall hcon hb he₀ hsum hne hlen
        induction s.queue with
        | nil => exact ⟨0, by simp⟩
        | cons a t ih =>
          obtain ⟨M, hM⟩ := ih
          refine ⟨max a.2 M, ?_⟩
          intro e he
          rcases List.mem_cons.1 he with rfl | het
          · exact le_max_left _ _
          · exact le_trans (hM e het) (le_max_right _ _)
      have := (hb (s.sum / s.queue.length + 1) M (fun e he => ⟨hall e he, hM e he⟩)).1
      omega
    · rw [List.coe_le_maximum_iff]
      by_contra hcon
      push_neg at hcon
      have h₀ := hcon e₀.2 (List.mem_map_of_mem _ he₀)
      have hall : ∀ e ∈ s.queue, e.2 ≤ s.sum / s.queue.length - 1 := by
        intro e he
        have := hcon e.2 (List.mem_map_of_mem _ he)
        omega
      have := (hb 0 (s.sum / s.queue.length - 1)
        (fun e he => ⟨Nat.zero_le _, hall e he⟩)).2
      omega

/-- C20, overflow of the running sum is transient.  For unsigned integers of `bits`
bits and a window `0 ≤ w`, every sequence of `update` calls on a fresh instance runs to
the end, and in the state it reaches `sum` is below `2 ^ bits` and congruent modulo
`2 ^ bits` to the exact sum of the queued values; so whenever that exact sum is below
`2 ^ bits`, `sum` is equal to it, whatever wrapped before. -/
theorem wrapped_sum_congruent (bits : Nat) (w : Int) (hw : 0 ≤ w) (calls : List (Int × Nat)) :
    ∃ s, updates (uintArith bits) (ctor (uintArith bits) w) calls = some s ∧
      s.sum < 2 ^ bits ∧
      s.sum % 2 ^ bits = (s.queue.map Prod.snd).sum % 2 ^ bits ∧
      ((s.queue.map Prod.snd).sum < 2 ^ bits → s.sum = (s.queue.map Prod.snd).sum) := by
  have hpos : 0 < 2 ^ bits := Nat.pos_pow_of_pos bits (by decide)
  obtain ⟨s, h, hlt, hs⟩ := uint_updates_sum bits calls (ctor (uintArith bits) w) hw
    (by simp [ctor, uintArith]) (by simp [ctor, uintArith, Nat.ModEq])
  refine ⟨s, h, hlt, hs, ?_⟩
  intro hq
  have h₁ : s.sum % 2 ^ bits = (s.queue.map Prod.snd).sum % 2 ^ bits := hs
  rw [Nat.mod_eq_of_lt hlt, Nat.mod_eq_of_lt hq] at h₁
  exact h₁

/-- An instance of C20: 8 bits, window 10.  After `update(200)` at 0 and `update(100)` at
1 the queue sums to 300 and `sum` has wrapped to 44; after `update(5)` at 100 both are
evicted and `sum` is 5, the sum of the queue. -/
theorem wrapped_sum_congruent_witness :
    (0 : Int) ≤ 10 ∧
    updates (uintArith 8) (ctor (uintArith 8) 10) [(0, 200), (1, 100)]
      = some ⟨10, 44, [(0, 200), (1, 100)]⟩ ∧
    updates (uintArith 8) (ctor (uintArith 8) 10) [(0, 200), (1, 100), (100, 5)]
      = some ⟨10, 5, [(100, 5)]⟩ ∧
    ∃ s, updates (uintArith 8) (ctor (uintArith 8) 10) [(0, 200), (1, 100), (100, 5)]
        = some s ∧
      s.sum < 2 ^ 8 ∧
      s.sum % 2 ^ 8 = (s.queue.map Prod.snd).sum % 2 ^ 8 ∧
      ((s.queue.map Prod.snd).sum < 2 ^ 8 → s.sum = (s.queue.map Prod.snd).sum) :=
  ⟨by decide, by decide, by decide,
   wrapped_sum_congruent 8 10 (by decide) [(0, 200), (1, 100), (100, 5)]⟩

end TimeWindowAverage
